import Mathlib

/-!
Verification of the historify journal system against its specification.

The development shallowly embeds the Python modules `changelog.py`,
`repository.py`, `cli_lifecycle.py`, `monitor.py`, `db.py`, `log.py` and
`media_packer.py`.  File contents are strings, the BLAKE3 primitive is an
abstract parameter `hash : String → String` (the spec treats digest and
signature primitives as black boxes), and filesystem state is explicit.
-/

namespace Historify

/-! ### String ordering

Python compares strings by code point; `sorted` on `pathlib` globs therefore
orders changelog file names lexicographically by character.  `lexLt` mirrors
`str.__lt__` on the underlying character lists. -/

/-- Code-point lexicographic comparison of character lists, mirroring Python
string comparison used by `sorted` on changelog file names. -/
def lexLt : List Char → List Char → Bool
  | [], [] => false
  | [], _ :: _ => true
  | _ :: _, [] => false
  | a :: as, b :: bs => if a < b then true else if b < a then false else lexLt as bs

/-- Python `a < b` on strings. -/
def strLtb (a b : String) : Bool := lexLt a.data b.data

/-- Stable insertion of a name into an ascending sorted list (helper of
`sortNames`). -/
def insertName (x : String) : List String → List String
  | [] => [x]
  | y :: ys => if strLtb x y then x :: y :: ys else y :: insertName x ys

/-- Python `sorted` on a list of file names (stable, ascending by `strLtb`). -/
def sortNames : List String → List String
  | [] => []
  | x :: xs => insertName x (sortNames xs)

theorem insertName_perm (x : String) (l : List String) :
    List.Perm (insertName x l) (x :: l) := by
  induction l with
  | nil => rfl
  | cons y ys ih =>
      unfold insertName
      by_cases h : strLtb x y = true
      · simp [h]
      · simp only [h]
        rw [if_neg (by simp [h])]
        exact (ih.cons y).trans (List.Perm.swap x y ys)

theorem sortNames_perm (l : List String) : List.Perm (sortNames l) l := by
  induction l with
  | nil => rfl
  | cons x xs ih => exact (insertName_perm x (sortNames xs)).trans (ih.cons x)

theorem mem_sortNames {a : String} {l : List String} :
    a ∈ sortNames l ↔ a ∈ l := (sortNames_perm l).mem_iff

/-! ### Decimal numerals

`changelog.py` derives fresh file names `changelog-<date>-<counter>.csv` with a
Python integer counter; the embedding uses `Nat.repr` for the counter text.  To
show the generated name is really fresh we need that distinct counters render
to distinct strings, which we obtain from a left inverse of `Nat.repr`. -/

/-- Numeric value of a decimal digit character. -/
def digitVal (c : Char) : Nat := c.toNat - 48

/-- Value of a decimal string, the left inverse of `Nat.repr`. -/
def valChars (l : List Char) : Nat := l.foldl (fun a c => 10 * a + digitVal c) 0

theorem digitVal_digitChar {d : Nat} (h : d < 10) :
    digitVal (Nat.digitChar d) = d := by
  interval_cases d <;> decide

theorem valChars_append (xs ys : List Char) :
    valChars (xs ++ ys) = (ys.foldl (fun a c => 10 * a + digitVal c) (valChars xs)) := by
  simp [valChars, List.foldl_append]

theorem toDigitsCore_shift (f : Nat) :
    ∀ (n : Nat) (ds : List Char),
      Nat.toDigitsCore 10 f n ds = Nat.toDigitsCore 10 f n [] ++ ds := by
  induction f with
  | zero => intro n ds; simp [Nat.toDigitsCore]
  | succ f ih =>
      intro n ds
      simp only [Nat.toDigitsCore]
      by_cases h : n / 10 = 0
      · simp [h]
      · simp only [h, if_false]
        rw [ih (n / 10) [Nat.digitChar (n % 10)],
            ih (n / 10) (Nat.digitChar (n % 10) :: ds)]
        simp

theorem valChars_toDigitsCore :
    ∀ (f n : Nat), n < 10 ^ f → valChars (Nat.toDigitsCore 10 f n []) = n := by
  intro f
  induction f with
  | zero => intro n h; interval_cases n; rfl
  | succ f ih =>
      intro n h
      simp only [Nat.toDigitsCore]
      by_cases h0 : n / 10 = 0
      · have hn : n < 10 := by
          rcases Nat.lt_or_ge n 10 with h' | h'
          · exact h'
          · exact absurd h0 (by
              have := Nat.div_le_div_right (c := 10) h'
              simp at this
              omega)
        simp only [h0, if_true]
        have : valChars [Nat.digitChar (n % 10)] = n % 10 := by
          simp [valChars, digitVal_digitChar (Nat.mod_lt n (by norm_num))]
        rw [this, Nat.mod_eq_of_lt hn]
      · simp only [h0, if_false]
        rw [toDigitsCore_shift]
        have hlt : n / 10 < 10 ^ f := by
          have h10 : (0:Nat) < 10 := by norm_num
          rw [Nat.div_lt_iff_lt_mul h10]
          calc n < 10 ^ (f + 1) := h
            _ = 10 ^ f * 10 := by ring
        rw [valChars_append, ih (n / 10) hlt]
        simp only [List.foldl]
        rw [digitVal_digitChar (Nat.mod_lt n (by norm_num))]
        omega

theorem valChars_repr (n : Nat) : valChars (Nat.repr n).data = n := by
  have hfuel : n < 10 ^ (n + 1) := by
    calc n < 10 ^ n := Nat.lt_pow_self (by norm_num) n
      _ ≤ 10 ^ (n + 1) := Nat.pow_le_pow_right (by norm_num) (Nat.le_succ n)
  have : (Nat.repr n).data = Nat.toDigitsCore 10 (n + 1) n [] := rfl
  rw [this, valChars_toDigitsCore (n + 1) n hfuel]

theorem repr_injective {m n : Nat} (h : Nat.repr m = Nat.repr n) : m = n := by
  have := congrArg (fun s => valChars s.data) h
  simpa [valChars_repr] using this

theorem repr_data_ne_nil (n : Nat) : (Nat.repr n).data ≠ [] := by
  intro heq
  have hv := valChars_repr n
  rw [heq] at hv
  simp [valChars] at hv
  subst hv
  exact absurd heq (by decide)

/-! ### Fresh changelog names

`Changelog.create_new_changelog` tries `changelog-<today>.csv` first and then
`changelog-<today>-<counter>.csv` for counter 1, 2, ... until the name does not
exist.  The loop is embedded with fuel one larger than the number of existing
files, which the pigeonhole argument below shows is always enough. -/

/-- Candidate file name tried at counter step `k` by the `while` loop of
`Changelog.create_new_changelog`. -/
def candName (today : String) : Nat → String
  | 0 => "changelog-" ++ today ++ ".csv"
  | k + 1 => "changelog-" ++ today ++ "-" ++ Nat.repr (k + 1) ++ ".csv"

/-- The `while new_changelog.exists()` loop of `create_new_changelog`:
return the first candidate name not among the existing files. -/
def findFreshName (names : List String) (today : String) : Nat → Nat → String
  | 0, k => candName today k
  | fuel + 1, k =>
      if names.contains (candName today k) then findFreshName names today fuel (k + 1)
      else candName today k

theorem candName_injective (today : String) : Function.Injective (candName today) := by
  intro j k h
  match j, k with
  | 0, 0 => rfl
  | 0, k + 1 =>
      exfalso
      have hd := congrArg (fun s => s.data.length) h
      simp only [candName, String.data_append, List.length_append, List.length_cons,
        List.length_nil] at hd
      have hne := List.length_pos.mpr (repr_data_ne_nil (k + 1))
      omega
  | j + 1, 0 =>
      exfalso
      have hd := congrArg (fun s => s.data.length) h
      simp only [candName, String.data_append, List.length_append, List.length_cons,
        List.length_nil] at hd
      have hne := List.length_pos.mpr (repr_data_ne_nil (j + 1))
      omega
  | j + 1, k + 1 =>
      have hd := congrArg String.data h
      simp only [candName, String.data_append, List.append_assoc] at hd
      have h1 := List.append_cancel_left hd
      have h2 := List.append_cancel_left h1
      have h3 := List.append_cancel_left h2
      have h4 := List.append_cancel_right h3
      have h5 := congrArg valChars h4
      rw [valChars_repr, valChars_repr] at h5
      omega

theorem nodup_subset_length {L names : List String} (h : L.Nodup)
    (hs : ∀ x ∈ L, x ∈ names) : L.length ≤ names.length := by
  calc L.length = L.toFinset.card := (List.toFinset_card_of_nodup h).symm
    _ ≤ names.toFinset.card := Finset.card_le_card (by
        intro x hx
        simp only [List.mem_toFinset] at hx ⊢
        exact hs x hx)
    _ ≤ names.length := List.toFinset_card_le names

theorem exists_fresh_cand (names : List String) (today : String) (k : Nat) :
    ∃ j, j < names.length + 1 ∧ candName today (k + j) ∉ names := by
  by_contra hall
  push_neg at hall
  have hsub : ∀ x ∈ (List.range (names.length + 1)).map (fun j => candName today (k + j)),
      x ∈ names := by
    intro x hx
    rcases List.mem_map.mp hx with ⟨j, hj, rfl⟩
    exact hall j (List.mem_range.mp hj)
  have hnd : ((List.range (names.length + 1)).map (fun j => candName today (k + j))).Nodup := by
    refine List.Nodup.map ?_ (List.nodup_range _)
    intro a b hab
    have := candName_injective today hab
    omega
  have := nodup_subset_length hnd hsub
  simp at this

theorem findFreshName_not_mem_of_exists (names : List String) (today : String) :
    ∀ (fuel k : Nat), (∃ j, j < fuel ∧ candName today (k + j) ∉ names) →
      findFreshName names today fuel k ∉ names := by
  intro fuel
  induction fuel with
  | zero =>
      intro k h
      rcases h with ⟨j, hj, _⟩
      omega
  | succ fuel ih =>
      intro k h
      unfold findFreshName
      by_cases hc : names.contains (candName today k) = true
      · rw [if_pos hc]
        apply ih (k + 1)
        rcases h with ⟨j, hj, hnot⟩
        match j with
        | 0 =>
            exact absurd (by simpa using hc) (by simpa using hnot)
        | j + 1 =>
            exact ⟨j, by omega, by rw [show k + 1 + j = k + (j + 1) by omega]; exact hnot⟩
      · rw [if_neg hc]
        simpa using hc

theorem findFreshName_not_mem (names : List String) (today : String) :
    findFreshName names today (names.length + 1) 0 ∉ names := by
  apply findFreshName_not_mem_of_exists
  simpa using exists_fresh_cand names today 0

/-! ### Changelog chain (`changelog.py`)

The repository state visible to `Changelog` consists of the changelog files in
`changes/` (name and parsed rows), the set of detached `.minisig` signatures,
the seed file, and the minisign configuration.  `minisign_sign` itself lives in
`minisign.py`, which the spec treats as a black box (§4.1): its outcome is
abstracted by the flags `keyExists` and `signWorks` (signing succeeds exactly
when the configured key file exists and the external tool accepts the key,
password and target file). -/

/-- One row of the frozen 9-column changelog CSV schema. -/
structure Row where
  timestamp : String
  transaction_type : String
  path : String
  category : String
  size : String
  ctime : String
  mtime : String
  sha256 : String
  blake3 : String
deriving DecidableEq

/-- State of the repository as seen by `changelog.py`: changelog files with
their rows (after the header line), names that have a `.csv.minisig` next to
them, the seed, today's date, the row timestamp, and the minisign
configuration. -/
structure RepoState where
  changelogs : List (String × List Row)
  sigs : List String
  seedContent : Option String
  seedSigned : Bool
  today : String
  now : String
  keyConfigured : Bool
  pubConfigured : Bool
  keyExists : Bool
  signWorks : Bool
deriving DecidableEq

/-- Names of the changelog files in `changes/` (the `changelog-*.csv` glob). -/
def changelogNames (s : RepoState) : List String := s.changelogs.map Prod.fst

/-- `Changelog.get_current_changelog`: walk the sorted glob from the most
recent name down and return the first one without a signature file. -/
def get_current_changelog (s : RepoState) : Option String :=
  ((sortNames (changelogNames s)).reverse).find? (fun n => !(s.sigs.contains n))

/-- The `latest_signed` loop inside `Changelog.start_closing`: iterate the
sorted glob and keep the last name whose signature file exists. -/
def latestSigned (s : RepoState) : Option String :=
  ((sortNames (changelogNames s)).filter (fun n => s.sigs.contains n)).getLast?

/-- A file that `sign_file` / `write_closing_transaction` may reference:
`db/seed.bin` or a changelog in `changes/`. -/
inductive FileRef where
  | seed : FileRef
  | changelog (name : String) : FileRef
deriving DecidableEq

/-- `Path.exists` for the two kinds of referenced files. -/
def fileRefExists (s : RepoState) : FileRef → Bool
  | .seed => s.seedContent.isSome
  | .changelog n => (changelogNames s).contains n

/-- Writing a file into `changes/` (`open(..., "w")`): truncate if the name
exists, create it otherwise. -/
def writeFile (cs : List (String × List Row)) (name : String) (rows : List Row) :
    List (String × List Row) :=
  if cs.any (fun e => e.1 == name) then
    cs.map (fun e => if e.1 == name then (name, rows) else e)
  else (name, rows) :: cs

/-- Appending one CSV row to a named changelog file (`open(..., "a")` plus
`writer.writerow`). -/
def appendRow (cs : List (String × List Row)) (name : String) (r : Row) :
    List (String × List Row) :=
  cs.map (fun e => if e.1 == name then (e.1, e.2 ++ [r]) else e)

/-- Reading the rows of a named changelog file. -/
def lookupRows (cs : List (String × List Row)) (name : String) : Option (List Row) :=
  (cs.find? (fun e => e.1 == name)).map Prod.snd

/-- The frozen CSV header line written by `create_new_changelog`. -/
def headerLine : String :=
  "timestamp,transaction_type,path,category,size,ctime,mtime,sha256,blake3\n"

/-- Serialized form of one row, for hashing changelog file content. -/
def renderRow (r : Row) : String :=
  r.timestamp ++ "," ++ r.transaction_type ++ "," ++ r.path ++ "," ++ r.category ++ "," ++
    r.size ++ "," ++ r.ctime ++ "," ++ r.mtime ++ "," ++ r.sha256 ++ "," ++ r.blake3 ++ "\n"

/-- Byte content of a changelog file: the header line followed by its rows. -/
def renderChangelog (rows : List Row) : String :=
  headerLine ++ String.join (rows.map renderRow)

/-- Content of a referenced file, used when hashing it. -/
def fileRefContent (s : RepoState) : FileRef → String
  | .seed => s.seedContent.getD ""
  | .changelog n => renderChangelog ((lookupRows s.changelogs n).getD [])

/-- `Changelog.sign_file`: fails when no key is configured, when the key file
is missing, or when `minisign_sign` fails (abstracted by `signWorks` and the
existence of the target); on success the detached signature appears. -/
def sign_file (s : RepoState) (f : FileRef) : Except String RepoState :=
  if s.keyConfigured = false then .error "Minisign private key not configured"
  else if s.keyExists = false then .error "Minisign private key not found"
  else if s.signWorks && fileRefExists s f then
    match f with
    | .seed => .ok { s with seedSigned := true }
    | .changelog n => .ok { s with sigs := n :: s.sigs }
  else .error "Failed to sign file"

/-- `Changelog.create_new_changelog`: refuse when an open changelog exists,
otherwise create `changelog-<today>[-N].csv` with the smallest counter whose
name does not exist yet, containing only the header. -/
def create_new_changelog (s : RepoState) : Except String (String × RepoState) :=
  match get_current_changelog s with
  | some current => .error ("There is already an open changelog: " ++ current)
  | none =>
      let name := findFreshName (changelogNames s) s.today (s.changelogs.length + 1) 0
      .ok (name, { s with changelogs := writeFile s.changelogs name [] })

/-- The row template of `write_closing_transaction` before the previous-file
fields are filled in. -/
def closingRowBase (s : RepoState) : Row :=
  { timestamp := s.now, transaction_type := "closing", path := "", category := "",
    size := "", ctime := "", mtime := "", sha256 := "", blake3 := "" }

/-- `Changelog.write_closing_transaction`: append a `closing` row to the
current open changelog; when `prev_file` is given and exists, its digest goes
into `blake3` and its repository-relative path into `path`, otherwise both
stay empty.  The sqlite cache update is fire-and-forget and not modelled. -/
def write_closing_transaction (hash : String → String) (s : RepoState)
    (prev : Option FileRef) : Except String (RepoState × Bool) :=
  match get_current_changelog s with
  | none => .error "No open changelog file. Run help start command first."
  | some changelogFile =>
      let t :=
        match prev with
        | some f =>
            if fileRefExists s f then
              match f with
              | .seed =>
                  { closingRowBase s with
                      path := "db/seed.bin",
                      blake3 := hash (fileRefContent s .seed) }
              | .changelog n =>
                  { closingRowBase s with
                      path := "changes/" ++ n,
                      blake3 := hash (fileRefContent s (.changelog n)) }
            else closingRowBase s
        | none => closingRowBase s
      .ok ({ s with changelogs := appendRow s.changelogs changelogFile t }, true)

/-- `Changelog.start_closing`: sign the open changelog (or, lazily, the seed),
then open a fresh changelog whose first row binds to the signed artifact.
Exceptions inside each branch are caught and returned as `(False, message)`
with whatever state had been reached; the integrity-cache update is
fire-and-forget and not modelled. -/
def start_closing (hash : String → String) (s : RepoState)
    (_password : Option String) : Except String ((Bool × String) × RepoState) :=
  if s.keyConfigured = false ∨ s.pubConfigured = false then
    .error "Minisign keys not configured. Use config minisign.key and config minisign.pub."
  else
    match get_current_changelog s with
    | none =>
        if s.seedSigned = false then
          match sign_file s .seed with
          | .error e => .ok ((false, "Failed to sign seed file: " ++ e), s)
          | .ok s1 =>
              match create_new_changelog s1 with
              | .error e => .ok ((false, "Failed to sign seed file: " ++ e), s1)
              | .ok (newName, s2) =>
                  match write_closing_transaction hash s2 (some .seed) with
                  | .error e => .ok ((false, "Failed to sign seed file: " ++ e), s2)
                  | .ok (s3, _) =>
                      .ok ((true, "Signed seed file and created first changelog: " ++ newName), s3)
        else
          match create_new_changelog s with
          | .error e => .ok ((false, "Failed to create new changelog: " ++ e), s)
          | .ok (newName, s1) =>
              match
                (match latestSigned s1 with
                 | some n => write_closing_transaction hash s1 (some (.changelog n))
                 | none => write_closing_transaction hash s1 (some .seed)) with
              | .error e => .ok ((false, "Failed to create new changelog: " ++ e), s1)
              | .ok (s2, _) => .ok ((true, "Created new changelog: " ++ newName), s2)
    | some current =>
        match sign_file s (.changelog current) with
        | .error e => .ok ((false, "Failed to close changelog: " ++ e), s)
        | .ok s1 =>
            match create_new_changelog s1 with
            | .error e => .ok ((false, "Failed to close changelog: " ++ e), s1)
            | .ok (newName, s2) =>
                match write_closing_transaction hash s2 (some (.changelog current)) with
                | .error e => .ok ((false, "Failed to close changelog: " ++ e), s2)
                | .ok (s3, _) =>
                    .ok ((true, "Signed " ++ current ++ " and created new changelog: " ++ newName),
                      s3)

/-! ### Lifecycle commands (`cli_lifecycle.py`) -/

/-- Outcome of a CLI command: normal output or `click.Abort`. -/
inductive CliResult where
  | success (msg : String) : CliResult
  | aborted (msg : String) : CliResult
deriving DecidableEq

/-- `handle_start_command`: run `start_closing` and abort on error or on a
`(False, message)` result. -/
def handle_start_command (hash : String → String) (s : RepoState)
    (password : Option String) : CliResult × RepoState :=
  match start_closing hash s password with
  | .error e => (.aborted ("Error: " ++ e), s)
  | .ok ((true, m), s1) => (.success ("Success: " ++ m), s1)
  | .ok ((false, m), s1) => (.aborted ("Error: " ++ m), s1)

/-- `handle_closing_command` is, by its own code, a call to
`handle_start_command` with the same arguments. -/
def handle_closing_command (hash : String → String) (s : RepoState)
    (password : Option String) : CliResult × RepoState :=
  handle_start_command hash s password

/-! ### Repository initialization (`repository.py`) -/

/-- Filesystem state touched by `Repository.initialize`.  The sqlite cache
`db/cache.db` is represented by the rows of its `config` table, triples of
key, value and description with `key` the primary key; `none` while the file
does not exist. -/
structure InitState where
  dbDirExists : Bool
  changesDirExists : Bool
  cacheDb : Option (List (String × String × String))
  seedContent : Option String
  configContent : Option String
deriving DecidableEq

/-- `Repository._create_dirs` (`mkdir(parents=True, exist_ok=True)`). -/
def repo_create_dirs (st : InitState) : InitState :=
  { st with dbDirExists := true, changesDirExists := true }

/-- `INSERT INTO config (key, value, description) VALUES (?, ?, ?)` against
the table declared with `key TEXT PRIMARY KEY`: inserting a key that is
already present raises `sqlite3.IntegrityError`. -/
def db_insert_config (key val descr : String)
    (tbl : List (String × String × String)) :
    Except String (List (String × String × String)) :=
  if tbl.any (fun r => r.1 == key) then
    .error "UNIQUE constraint failed: config.key"
  else
    .ok (tbl ++ [(key, val, descr)])

/-- `Repository._initialize_database`: `sqlite3.connect` creates `cache.db`
when absent (an empty `config` table), `CREATE TABLE IF NOT EXISTS` leaves an
existing table alone, then two plain `INSERT INTO config` statements add the
`repository.name` and `hash.algorithms` rows.  A duplicate key raises
`IntegrityError` before `conn.commit()` is reached, so on failure the stored
table is unchanged. -/
def repo_initialize_database (name : String) (st : InitState) :
    Except String InitState :=
  let tbl := st.cacheDb.getD []
  match db_insert_config "repository.name" name "Repository name" tbl with
  | .error e => .error e
  | .ok t1 =>
    match db_insert_config "hash.algorithms" "blake3,sha256"
        "Hash algorithms used for file integrity" t1 with
    | .error e => .error e
    | .ok t2 => .ok { st with cacheDb := some t2 }

/-- `Repository._create_seed`: open `db/seed.bin` for writing (`"wb"`) and
write 1 MiB from the RNG — unconditionally, also when the file already
exists. -/
def repo_create_seed (rng : String) (st : InitState) : InitState :=
  { st with seedContent := some rng }

/-- `Repository._create_config`: rewrite `db/config`. -/
def repo_create_config (cfg : String) (st : InitState) : InitState :=
  { st with configContent := some cfg }

/-- `Repository.initialize`: directories, database, seed, config, in that
order.  Any exception is caught and re-raised as
`RepositoryError("Failed to initialize repository: ...")`; side effects of
the steps already completed persist (the directories), while the seed and
config writes are only reached once the database step has succeeded. -/
def repository_init (name rng cfg : String) (st : InitState) :
    Except String Unit × InitState :=
  let st1 := repo_create_dirs st
  match repo_initialize_database name st1 with
  | .error e => (.error ("Failed to initialize repository: " ++ e), st1)
  | .ok st2 => (.ok (), repo_create_config cfg (repo_create_seed rng st2))

/-! ### Scanner (`monitor.py`, `db.py`, `log.py`) -/

/-- A regular file met during the walk: repository-relative path and BLAKE3
digest. -/
structure ScanFile where
  path : String
  hash : String
deriving DecidableEq

/-- A transaction emitted by `FileMonitor.scan` (`old_path` is the move
metadata, empty otherwise). -/
structure Txn where
  type : String
  path : String
  hash : String
  old_path : String
deriving DecidableEq

/-- The sqlite `files` table of `db.py`: `hash` is the primary key. -/
abbrev FilesDb := List (String × String)

/-- Dictionary lookup in the `known_files` snapshot. -/
def dbLookup (db : FilesDb) (h : String) : Option String :=
  (db.find? (fun e => e.1 == h)).map Prod.snd

/-- `DatabaseManager.add_file` (`INSERT OR REPLACE` keyed on the hash). -/
def add_file (db : FilesDb) (h p : String) : FilesDb :=
  if db.any (fun e => e.1 == h) then db.map (fun e => if e.1 == h then (h, p) else e)
  else (h, p) :: db

/-- The walk loop of `FileMonitor.scan`: classify each file against the
`known_files` snapshot (`hash -> path`), emitting `new` and `move`
transactions and updating the database, never the snapshot. -/
def scanWalk (known : FilesDb) : FilesDb → List ScanFile → List Txn × FilesDb
  | db, [] => ([], db)
  | db, f :: fs =>
      match dbLookup known f.hash with
      | none =>
          let r := scanWalk known (add_file db f.hash f.path) fs
          (⟨"new", f.path, f.hash, ""⟩ :: r.1, r.2)
      | some oldPath =>
          if oldPath ≠ f.path then
            let r := scanWalk known (add_file db f.hash f.path) fs
            (⟨"move", f.path, f.hash, oldPath⟩ :: r.1, r.2)
          else scanWalk known db fs

/-- The deletion sweep at the end of `FileMonitor.scan`: every snapshot entry
whose path was not seen in the walk yields a `deleted` transaction; the
database is not updated ("Optionally remove from database (not implemented
here)"). -/
def deletedTxns (known : FilesDb) (currentPaths : List String) : List Txn :=
  (known.filter (fun e => !(currentPaths.contains e.2))).map
    (fun e => ⟨"deleted", e.2, e.1, ""⟩)

/-- `FileMonitor.scan` over an already-resolved walk: `known_files` is loaded
once from the database, files are classified in walk order, then missing
paths are reported deleted. -/
def scan (db : FilesDb) (walk : List ScanFile) : List Txn × FilesDb :=
  let r := scanWalk db db walk
  (r.1 ++ deletedTxns db (walk.map ScanFile.path), r.2)

/-- The transaction types `LogManager.write_transaction` accepts; anything
else raises `ConfigError` (`changed` is not among them). -/
def logValidTypes : List String :=
  ["closing_db", "closing_log", "new", "move", "duplicate", "deleted",
   "config", "comment", "seed", "verify"]

/-- The validation prelude of `LogManager.write_transaction`. -/
def write_transaction_check (transaction_type : String) : Except String Unit :=
  if logValidTypes.contains transaction_type then .ok ()
  else .error ("Invalid transaction type: " ++ transaction_type)

/-! ### Media packer (`media_packer.py`) -/

/-- An archive handed to the media packer. -/
structure Archive where
  name : String
  size : Nat
  present : Bool
deriving DecidableEq

/-- BD-R single layer capacity in bytes (25 GiB). -/
def BD_R_SINGLE_LAYER_CAPACITY : Nat := 25 * 1024 * 1024 * 1024

/-- `archive.stat().st_size if archive.exists() else 0`, the sort key of
`split_archives_for_media`. -/
def sortKey (a : Archive) : Nat := if a.present then a.size else 0

/-- Stable insertion for descending sort (helper of `sortDesc`). -/
def insertDesc (x : Archive) : List Archive → List Archive
  | [] => [x]
  | y :: ys => if sortKey y ≤ sortKey x then x :: y :: ys else y :: insertDesc x ys

/-- Python `sorted(key=..., reverse=True)`: stable descending by size. -/
def sortDesc : List Archive → List Archive
  | [] => []
  | x :: xs => insertDesc x (sortDesc xs)

/-- `calculate_archives_size`: total size of all existing archives. -/
def calculate_archives_size (archives : List Archive) : Nat :=
  (archives.filter Archive.present).foldl (fun acc a => acc + a.size) 0

/-- The grouping loop of `split_archives_for_media`: close the current group
when the next archive would exceed the capacity and the group is non-empty,
then add the archive to the (possibly fresh) group; missing archives are
skipped. -/
def splitGo (cap : Nat) : List Archive → List Archive → Nat → List (List Archive)
  | [], curr, _ => if curr.isEmpty then [] else [curr]
  | a :: rest, curr, currSize =>
      if a.present = false then splitGo cap rest curr currSize
      else if currSize + a.size > cap ∧ curr ≠ [] then
        curr :: splitGo cap rest [a] a.size
      else splitGo cap rest (curr ++ [a]) (currSize + a.size)

/-- `split_archives_for_media`: sort by size descending, then group greedily
into bins of the given capacity, keeping a single open bin. -/
def split_archives_for_media (archives : List Archive) (media_capacity : Nat) :
    List (List Archive) :=
  splitGo media_capacity (sortDesc archives) [] 0

/-- An optical-media image produced by the packer.  `create_iso_image` itself
is external (pycdlib, a black box per the spec); the model records the base
name, the disc-number suffix and the contents. -/
structure MediaImage where
  baseName : String
  discNum : Option Nat
  contents : List Archive
deriving DecidableEq

/-- `pack_for_bd_r`: one unsuffixed image when the total size fits a single
BD-R, otherwise one `-discN` image per group of the split. -/
def pack_for_bd_r (archives : List Archive) (base : String) : List MediaImage :=
  if calculate_archives_size archives ≤ BD_R_SINGLE_LAYER_CAPACITY then
    [{ baseName := base, discNum := none, contents := archives }]
  else
    (split_archives_for_media archives BD_R_SINGLE_LAYER_CAPACITY).mapIdx
      (fun i g => { baseName := base, discNum := some (i + 1), contents := g })

/-- Modelled from the spec: §4.9 prescribes "Sort archives by size descending;
greedily fit into bins of capacity C (first-fit-decreasing)"; each archive
goes into the first existing bin it fits.  Stated for comparison with
`split_archives_for_media` in claim C8. -/
def ffdInsert (cap : Nat) (a : Archive) : List (List Archive × Nat) → List (List Archive × Nat)
  | [] => [([a], a.size)]
  | (g, sz) :: rest =>
      if sz + a.size ≤ cap then (g ++ [a], sz + a.size) :: rest
      else (g, sz) :: ffdInsert cap a rest

/-- Modelled from the spec: the bins of first-fit-decreasing packing. -/
def firstFitDecreasing (archives : List Archive) (cap : Nat) : List (List Archive) :=
  ((sortDesc archives).foldl (fun bins a => ffdInsert cap a bins) []).map Prod.fst

/-- Decidable equality on `Except`, needed to evaluate the embedded
operations on concrete states. -/
instance {e a : Type} [DecidableEq e] [DecidableEq a] : DecidableEq (Except e a) := fun x y =>
  match x, y with
  | .ok v, .ok w => if h : v = w then isTrue (by rw [h]) else isFalse (by
      intro hc
      cases hc
      exact h rfl)
  | .error v, .error w => if h : v = w then isTrue (by rw [h]) else isFalse (by
      intro hc
      cases hc
      exact h rfl)
  | .ok _, .error _ => isFalse (by intro hc; cases hc)
  | .error _, .ok _ => isFalse (by intro hc; cases hc)

/-! ### Scanner lemmas -/

/-- The database update performed by the walk loop for one file. -/
def scanUpd (known : FilesDb) (d : FilesDb) (f : ScanFile) : FilesDb :=
  match dbLookup known f.hash with
  | none => add_file d f.hash f.path
  | some oldPath => if oldPath ≠ f.path then add_file d f.hash f.path else d

/-- The transaction emitted by the walk loop for one file. -/
def scanTxn (known : FilesDb) (f : ScanFile) : Option Txn :=
  match dbLookup known f.hash with
  | none => some ⟨"new", f.path, f.hash, ""⟩
  | some oldPath => if oldPath ≠ f.path then some ⟨"move", f.path, f.hash, oldPath⟩ else none

theorem scanWalk_eq (known : FilesDb) (walk : List ScanFile) :
    ∀ db, scanWalk known db walk =
      (walk.filterMap (scanTxn known), walk.foldl (scanUpd known) db) := by
  induction walk with
  | nil => intro db; rfl
  | cons f fs ih =>
      intro db
      simp only [scanWalk, scanTxn, scanUpd, List.filterMap_cons, List.foldl_cons]
      cases hlk : dbLookup known f.hash with
      | none => simp [hlk, ih]
      | some q =>
          by_cases hq : q ≠ f.path
          · simp [hlk, hq, ih]
          · simp [hlk, hq, ih]

theorem dbLookup_nil (x : String) : dbLookup [] x = none := rfl

theorem dbLookup_cons (e : String × String) (d : FilesDb) (x : String) :
    dbLookup (e :: d) x = if e.1 = x then some e.2 else dbLookup d x := by
  by_cases he : e.1 = x
  · simp [dbLookup, List.find?_cons, he]
  · simp [dbLookup, List.find?_cons, he]

theorem any_key_iff (d : FilesDb) (h : String) :
    d.any (fun e => e.1 == h) = true ↔ (dbLookup d h).isSome := by
  induction d with
  | nil => simp [dbLookup]
  | cons e es ih =>
      rw [dbLookup_cons]
      by_cases h0 : e.1 = h
      · simp [h0]
      · have hb : (e.1 == h) = false := beq_eq_false_iff_ne.mpr h0
        simp only [List.any_cons, hb, if_neg h0, Bool.false_or]
        exact ih

theorem dbLookup_replace (d : FilesDb) (h p x : String) :
    dbLookup (d.map (fun e => if e.1 == h then (h, p) else e)) x =
      if x = h then (dbLookup d h).map (fun _ => p) else dbLookup d x := by
  induction d with
  | nil => by_cases hx : x = h <;> simp [dbLookup, hx]
  | cons e es ih =>
      simp only [beq_iff_eq] at ih ⊢
      by_cases he : e.1 = h
      · simp only [List.map_cons, if_pos he, dbLookup_cons, he]
        by_cases hx : x = h
        · simp [hx]
        · have h1 : ¬ h = x := fun hc => hx hc.symm
          have h2 : ¬ e.1 = x := fun hc => hx (he.symm.trans hc).symm
          simp [h1, h2, hx, ih]
      · simp only [List.map_cons, if_neg he, dbLookup_cons]
        by_cases hex : e.1 = x
        · have hxh : ¬ x = h := fun hc => he (hex.trans hc)
          simp [hex, hxh]
        · simp [hex, he, ih]

theorem dbLookup_add_file (d : FilesDb) (h p x : String) :
    dbLookup (add_file d h p) x = if x = h then some p else dbLookup d x := by
  unfold add_file
  by_cases hany : d.any (fun e => e.1 == h) = true
  · rw [if_pos hany, dbLookup_replace]
    by_cases hx : x = h
    · rw [if_pos hx, if_pos hx]
      rcases Option.isSome_iff_exists.mp ((any_key_iff d h).mp hany) with ⟨q, hq⟩
      simp [hq]
    · rw [if_neg hx, if_neg hx]
  · rw [if_neg hany, dbLookup_cons]
    by_cases hx : x = h
    · rw [if_pos (by exact hx.symm), if_pos hx]
    · rw [if_neg (by exact fun hc => hx hc.symm), if_neg hx]

theorem mem_add_file {e : String × String} {d : FilesDb} {h p : String}
    (he : e ∈ add_file d h p) : e = (h, p) ∨ e ∈ d := by
  unfold add_file at he
  by_cases hany : d.any (fun e => e.1 == h) = true
  · rw [if_pos hany] at he
    rcases List.mem_map.mp he with ⟨e0, he0, hmap⟩
    by_cases h0 : e0.1 == h
    · rw [if_pos h0] at hmap
      exact .inl hmap.symm
    · rw [if_neg h0] at hmap
      exact .inr (hmap ▸ he0)
  · rw [if_neg hany] at he
    rcases List.mem_cons.mp he with rfl | he'
    · exact .inl rfl
    · exact .inr he'

theorem mem_deletedTxns {db : FilesDb} {current : List String} {t : Txn}
    (ht : t ∈ deletedTxns db current) :
    ∃ e ∈ db, t = ⟨"deleted", e.2, e.1, ""⟩ ∧ current.contains e.2 = false := by
  unfold deletedTxns at ht
  rcases List.mem_map.mp ht with ⟨e, he, rfl⟩
  rcases List.mem_filter.mp he with ⟨hmem, hcond⟩
  exact ⟨e, hmem, rfl, by simpa using hcond⟩

theorem scanTxn_fields {known : FilesDb} {f : ScanFile} {t : Txn}
    (h : scanTxn known f = some t) :
    t.path = f.path ∧ t.hash = f.hash ∧ (t.type = "new" ∨ t.type = "move") := by
  unfold scanTxn at h
  split at h
  · cases h
    exact ⟨rfl, rfl, .inl rfl⟩
  · split at h
    · cases h
      exact ⟨rfl, rfl, .inr rfl⟩
    · cases h

theorem scan_only_emits_new_move_deleted (db : FilesDb) (walk : List ScanFile) :
    ∀ t ∈ (scan db walk).1, t.type = "new" ∨ t.type = "move" ∨ t.type = "deleted" := by
  intro t ht
  simp only [scan, scanWalk_eq, List.mem_append] at ht
  rcases ht with ht | ht
  · rcases List.mem_filterMap.mp ht with ⟨f, _, hf⟩
    rcases scanTxn_fields hf with ⟨_, _, h3⟩
    exact h3.imp id Or.inl
  · rcases mem_deletedTxns ht with ⟨e, _, rfl, _⟩
    exact .inr (.inr rfl)

theorem foldl_scanUpd_lookup_frozen (known : FilesDb) (x : String) :
    ∀ (l : List ScanFile) (db : FilesDb), (∀ g ∈ l, g.hash ≠ x) →
      dbLookup (l.foldl (scanUpd known) db) x = dbLookup db x := by
  intro l
  induction l with
  | nil => intro db _; rfl
  | cons f fs ih =>
      intro db hx
      rw [List.foldl_cons, ih _ (fun g hg => hx g (List.mem_cons_of_mem f hg))]
      have hfx : ¬ x = f.hash := fun hc => hx f (List.mem_cons_self f fs) hc.symm
      unfold scanUpd
      split
      · rw [dbLookup_add_file, if_neg hfx]
      · split
        · rw [dbLookup_add_file, if_neg hfx]
        · rfl

theorem foldl_scanUpd_lookup (known : FilesDb) :
    ∀ (l : List ScanFile) (db : FilesDb) (f : ScanFile), f ∈ l →
      (l.map ScanFile.hash).Nodup →
      dbLookup db f.hash = dbLookup known f.hash →
      dbLookup (l.foldl (scanUpd known) db) f.hash = some f.path := by
  intro l
  induction l with
  | nil => intro db f hf; cases hf
  | cons g gs ih =>
      intro db f hf hnd hdb
      rw [List.map_cons, List.nodup_cons] at hnd
      rw [List.foldl_cons]
      rcases List.mem_cons.mp hf with rfl | hf'
      · have hfroz : ∀ k ∈ gs, k.hash ≠ f.hash := by
          intro k hk hc
          exact hnd.1 (hc ▸ List.mem_map.mpr ⟨k, hk, rfl⟩)
        rw [foldl_scanUpd_lookup_frozen known f.hash gs _ hfroz]
        unfold scanUpd
        split
        · rw [dbLookup_add_file, if_pos rfl]
        · rename_i q hq
          by_cases hqp : q ≠ f.path
          · rw [if_pos hqp, dbLookup_add_file, if_pos rfl]
          · rw [if_neg hqp]
            rw [hdb, hq]
            simpa using hqp
      · apply ih _ f hf' hnd.2
        have hgf : ¬ f.hash = g.hash := by
          intro hc
          exact hnd.1 (hc ▸ List.mem_map.mpr ⟨f, hf', rfl⟩)
        unfold scanUpd
        split
        · rw [dbLookup_add_file, if_neg hgf, hdb]
        · split
          · rw [dbLookup_add_file, if_neg hgf, hdb]
          · exact hdb

theorem foldl_scanUpd_entries (known : FilesDb) :
    ∀ (l : List ScanFile) (db : FilesDb) (e : String × String),
      e ∈ l.foldl (scanUpd known) db → e ∈ db ∨ ∃ f ∈ l, e = (f.hash, f.path) := by
  intro l
  induction l with
  | nil =>
      intro db e he
      exact .inl he
  | cons f fs ih =>
      intro db e he
      rw [List.foldl_cons] at he
      rcases ih _ e he with h1 | ⟨g, hg, rfl⟩
      · unfold scanUpd at h1
        split at h1
        · rcases mem_add_file h1 with rfl | h2
          · exact .inr ⟨f, List.mem_cons_self f fs, rfl⟩
          · exact .inl h2
        · split at h1
          · rcases mem_add_file h1 with rfl | h2
            · exact .inr ⟨f, List.mem_cons_self f fs, rfl⟩
            · exact .inl h2
          · exact .inl h1
      · exact .inr ⟨g, List.mem_cons_of_mem f hg, rfl⟩

/-- Claim C7 (amended): after a scan, a second scan over an unchanged
filesystem emits zero transactions, provided the walked files carry pairwise
distinct digests and every database entry's path is among the walked paths. -/
theorem C7_amended_rescan_empty (db : FilesDb) (walk : List ScanFile)
    (hhashes : (walk.map ScanFile.hash).Nodup)
    (hcover : ∀ e ∈ db, e.2 ∈ walk.map ScanFile.path) :
    (scan (scan db walk).2 walk).1 = [] := by
  have hdb1 : (scan db walk).2 = walk.foldl (scanUpd db) db := by
    simp [scan, scanWalk_eq]
  have hlook : ∀ f ∈ walk, dbLookup ((scan db walk).2) f.hash = some f.path := by
    intro f hf
    rw [hdb1]
    exact foldl_scanUpd_lookup db walk db f hf hhashes rfl
  have hentries : ∀ e ∈ (scan db walk).2, e.2 ∈ walk.map ScanFile.path := by
    intro e he
    rw [hdb1] at he
    rcases foldl_scanUpd_entries db walk db e he with h1 | ⟨f, hf, rfl⟩
    · exact hcover e h1
    · exact List.mem_map.mpr ⟨f, hf, rfl⟩
  simp only [scan, scanWalk_eq, List.append_eq_nil]
  constructor
  · rw [List.filterMap_eq_nil_iff]
    intro f hf
    unfold scanTxn
    rw [hdb1] at hlook
    rw [hlook f hf]
    simp
  · unfold deletedTxns
    rw [List.map_eq_nil_iff, List.filter_eq_nil_iff]
    intro e he
    rw [hdb1] at hentries
    have hmem := hentries e he
    rcases List.mem_map.mp hmem with ⟨f, hf, hfp⟩
    have hany : ((List.map ScanFile.path walk).any fun x => e.2 == x) = true :=
      List.any_eq_true.mpr ⟨e.2, hmem, by simp⟩
    simp only [List.contains_eq_any_beq, hany, Bool.not_true, Bool.false_eq_true,
      not_false_eq_true]

theorem contains_true_of_mem {l : List String} {a : String} (h : a ∈ l) :
    l.contains a = true := by
  simp only [List.contains_eq_any_beq, List.any_eq_true]
  exact ⟨a, h, by simp⟩

theorem filterMap_scanTxn_filter_nil (known : FilesDb) (P : Txn → Bool)
    (l : List ScanFile) (hP : ∀ f ∈ l, ∀ t, scanTxn known f = some t → P t = false) :
    (l.filterMap (scanTxn known)).filter P = [] := by
  rw [List.filter_eq_nil_iff]
  intro t ht
  rcases List.mem_filterMap.mp ht with ⟨f, hf, hft⟩
  simp [hP f hf t hft]

theorem walk_filter_move (known : FilesDb) (h oldp newp : String)
    (hlk : dbLookup known h = some oldp) (hne : newp ≠ oldp) :
    ∀ l : List ScanFile, (⟨newp, h⟩ : ScanFile) ∈ l →
      (l.map ScanFile.path).Nodup → oldp ∉ l.map ScanFile.path →
      (l.filterMap (scanTxn known)).filter (fun t => t.path == newp || t.path == oldp) =
        [⟨"move", newp, h, oldp⟩] := by
  intro l
  induction l with
  | nil =>
      intro hm
      cases hm
  | cons f fs ih =>
      intro hm hnd hop
      rw [List.map_cons, List.nodup_cons] at hnd
      rw [List.map_cons, List.mem_cons] at hop
      push_neg at hop
      rcases List.mem_cons.mp hm with heq | hm'
      · subst heq
        have hst : scanTxn known ⟨newp, h⟩ = some ⟨"move", newp, h, oldp⟩ := by
          have hne2 : oldp ≠ newp := fun hc => hne hc.symm
          simp [scanTxn, hlk, hne2]
        rw [List.filterMap_cons, hst, List.filter_cons]
        have hPt : ((⟨"move", newp, h, oldp⟩ : Txn).path == newp ||
            (⟨"move", newp, h, oldp⟩ : Txn).path == oldp) = true := by simp
        rw [if_pos hPt]
        have hfs : (fs.filterMap (scanTxn known)).filter
            (fun t => t.path == newp || t.path == oldp) = [] := by
          apply filterMap_scanTxn_filter_nil
          intro g hg t hgt
          have hgp := (scanTxn_fields hgt).1
          have hgnew : g.path ≠ newp := by
            intro hc
            exact hnd.1 (hc ▸ List.mem_map.mpr ⟨g, hg, rfl⟩)
          have hgold : g.path ≠ oldp := fun hc => hop.2 (hc ▸ List.mem_map.mpr ⟨g, hg, rfl⟩)
          simp [hgp, hgnew, hgold]
        rw [hfs]
      · have hfp : f.path ≠ newp := by
          intro hc
          apply hnd.1
          have : ScanFile.path ⟨newp, h⟩ ∈ fs.map ScanFile.path :=
            List.mem_map.mpr ⟨⟨newp, h⟩, hm', rfl⟩
          simpa [← hc] using this
        rw [List.filterMap_cons]
        cases hst : scanTxn known f with
        | none => exact ih hm' hnd.2 hop.2
        | some t =>
            rw [List.filter_cons]
            have hPf : (t.path == newp || t.path == oldp) = false := by
              have hgp := (scanTxn_fields hst).1
              have hfo : f.path ≠ oldp := fun hc => hop.1 hc.symm
              simp [hgp, hfp, hfo]
            rw [if_neg (by simp [hPf])]
            exact ih hm' hnd.2 hop.2

theorem walk_filter_new (known : FilesDb) (p hNew : String)
    (hlkNew : dbLookup known hNew = none) :
    ∀ l : List ScanFile, (⟨p, hNew⟩ : ScanFile) ∈ l →
      (l.map ScanFile.path).Nodup →
      (l.filterMap (scanTxn known)).filter (fun t => t.path == p) =
        [⟨"new", p, hNew, ""⟩] := by
  intro l
  induction l with
  | nil =>
      intro hm
      cases hm
  | cons f fs ih =>
      intro hm hnd
      rw [List.map_cons, List.nodup_cons] at hnd
      rcases List.mem_cons.mp hm with heq | hm'
      · subst heq
        have hst : scanTxn known ⟨p, hNew⟩ = some ⟨"new", p, hNew, ""⟩ := by
          simp [scanTxn, hlkNew]
        rw [List.filterMap_cons, hst, List.filter_cons]
        rw [if_pos (by simp)]
        have hfs : (fs.filterMap (scanTxn known)).filter (fun t => t.path == p) = [] := by
          apply filterMap_scanTxn_filter_nil
          intro g hg t hgt
          have hgp := (scanTxn_fields hgt).1
          have hgnew : g.path ≠ p := by
            intro hc
            exact hnd.1 (hc ▸ List.mem_map.mpr ⟨g, hg, rfl⟩)
          simp [hgp, hgnew]
        rw [hfs]
      · have hfp : f.path ≠ p := by
          intro hc
          apply hnd.1
          have : ScanFile.path ⟨p, hNew⟩ ∈ fs.map ScanFile.path :=
            List.mem_map.mpr ⟨⟨p, hNew⟩, hm', rfl⟩
          simpa [← hc] using this
        rw [List.filterMap_cons]
        cases hst : scanTxn known f with
        | none => exact ih hm' hnd.2
        | some t =>
            rw [List.filter_cons]
            have hgp := (scanTxn_fields hst).1
            rw [if_neg (by simp [hgp, hfp])]
            exact ih hm' hnd.2

theorem deleted_filter_nil (current : List String) (oldp newp : String)
    (hnewc : newp ∈ current) (es : FilesDb) (hno : ∀ e ∈ es, e.2 ≠ oldp) :
    (deletedTxns es current).filter (fun t => t.path == newp || t.path == oldp) = [] := by
  rw [List.filter_eq_nil_iff]
  intro t ht
  rcases mem_deletedTxns ht with ⟨e, he, rfl, hcond⟩
  have h1 : e.2 ≠ oldp := hno e he
  have h2 : e.2 ≠ newp := by
    intro hc
    rw [hc, contains_true_of_mem hnewc] at hcond
    cases hcond
  simp [h1, h2]

theorem deleted_filter_current_nil (db : FilesDb) (current : List String) (p : String)
    (hp : p ∈ current) :
    (deletedTxns db current).filter (fun t => t.path == p) = [] := by
  rw [List.filter_eq_nil_iff]
  intro t ht
  rcases mem_deletedTxns ht with ⟨e, he, rfl, hcond⟩
  have h2 : e.2 ≠ p := by
    intro hc
    rw [hc, contains_true_of_mem hp] at hcond
    cases hcond
  simp [h2]

theorem deleted_filter_single (current : List String) (h oldp newp : String)
    (hnewc : newp ∈ current) (holdc : oldp ∉ current) :
    ∀ db : FilesDb, dbLookup db h = some oldp →
      (db.map Prod.fst).Nodup →
      (∀ e ∈ db, e.2 = oldp → e = (h, oldp)) →
      (deletedTxns db current).filter (fun t => t.path == newp || t.path == oldp) =
        [⟨"deleted", oldp, h, ""⟩] := by
  intro db
  induction db with
  | nil =>
      intro hlk
      simp [dbLookup] at hlk
  | cons e es ih =>
      intro hlk hnd huniq
      rw [dbLookup_cons] at hlk
      rw [List.map_cons, List.nodup_cons] at hnd
      by_cases hkey : e.1 = h
      · rw [if_pos hkey] at hlk
        have hval : e.2 = oldp := by
          cases hlk
          rfl
        have he : e = (h, oldp) := by
          cases e
          simp only [Prod.mk.injEq]
          exact ⟨hkey, hval⟩
        unfold deletedTxns
        rw [List.filter_cons]
        have hcond : (!(current.contains e.2)) = true := by
          rw [hval]
          cases hcc : current.contains oldp with
          | false => rfl
          | true =>
              exfalso
              rcases (by
                simpa [List.contains_eq_any_beq, List.any_eq_true] using hcc :
                  ∃ x ∈ current, oldp = x) with ⟨x, hx, rfl⟩
              exact holdc hx
        rw [if_pos hcond, List.map_cons, List.filter_cons]
        rw [if_pos (by simp [he])]
        have hfs : ((es.filter (fun e => !(current.contains e.2))).map
            (fun e => (⟨"deleted", e.2, e.1, ""⟩ : Txn))).filter
            (fun t => t.path == newp || t.path == oldp) = [] := by
          have := deleted_filter_nil current oldp newp hnewc es (by
            intro e2 he2 hv
            have h2 := huniq e2 (List.mem_cons_of_mem e he2) hv
            apply hnd.1
            rw [hkey]
            exact List.mem_map.mpr ⟨e2, he2, show e2.1 = h by rw [h2]⟩)
          simpa [deletedTxns] using this
        rw [hfs]
        simp [he]
      · rw [if_neg hkey] at hlk
        have hval : e.2 ≠ oldp := by
          intro hv
          exact hkey (congrArg Prod.fst (huniq e (List.mem_cons_self e es) hv))
        unfold deletedTxns
        rw [List.filter_cons]
        by_cases hcond : (!(current.contains e.2)) = true
        · rw [if_pos hcond, List.map_cons, List.filter_cons]
          have hvn : e.2 ≠ newp := by
            intro hc
            rw [hc, contains_true_of_mem hnewc] at hcond
            cases hcond
          rw [if_neg (by simp [hval, hvn])]
          have := ih hlk hnd.2 (fun e2 he2 hv => huniq e2 (List.mem_cons_of_mem e he2) hv)
          simpa [deletedTxns] using this
        · rw [if_neg hcond]
          have := ih hlk hnd.2 (fun e2 he2 hv => huniq e2 (List.mem_cons_of_mem e he2) hv)
          simpa [deletedTxns] using this

/-- Claim C2 (amended): after renaming a tracked file without content change,
the scan emits exactly one `move` row for it, recording the old path, and no
`new` row — but it also emits exactly one `deleted` row naming the old path,
because the deletion sweep reads the unmodified `known_files` snapshot. -/
theorem C2_amended_rename (db : FilesDb) (walk : List ScanFile)
    (h oldp newp : String)
    (hlk : dbLookup db h = some oldp)
    (hkeys : (db.map Prod.fst).Nodup)
    (huniq : ∀ e ∈ db, e.2 = oldp → e = (h, oldp))
    (hwmem : (⟨newp, h⟩ : ScanFile) ∈ walk)
    (hpaths : (walk.map ScanFile.path).Nodup)
    (hne : newp ≠ oldp)
    (hold : oldp ∉ walk.map ScanFile.path) :
    (scan db walk).1.filter (fun t => t.path == newp || t.path == oldp) =
      [⟨"move", newp, h, oldp⟩, ⟨"deleted", oldp, h, ""⟩] := by
  have hnewc : newp ∈ walk.map ScanFile.path := List.mem_map.mpr ⟨⟨newp, h⟩, hwmem, rfl⟩
  simp only [scan, scanWalk_eq, List.filter_append]
  rw [walk_filter_move db h oldp newp hlk hne walk hwmem hpaths hold,
      deleted_filter_single (walk.map ScanFile.path) h oldp newp hnewc hold db hlk hkeys huniq]
  rfl

/-- Witness for the amended C2 at the state of the repository test: one
tracked file `data/test.txt`, renamed to `data/moved.txt`. -/
theorem C2_amended_rename_witness :
    (dbLookup [("h1", "data/test.txt")] "h1" = some "data/test.txt" ∧
     ("data/moved.txt" : String) ≠ "data/test.txt" ∧
     "data/test.txt" ∉ ([⟨"data/moved.txt", "h1"⟩] : List ScanFile).map ScanFile.path) ∧
    (scan [("h1", "data/test.txt")] [⟨"data/moved.txt", "h1"⟩]).1.filter
        (fun t => t.path == "data/moved.txt" || t.path == "data/test.txt") =
      [⟨"move", "data/moved.txt", "h1", "data/test.txt"⟩,
       ⟨"deleted", "data/test.txt", "h1", ""⟩] :=
  ⟨⟨by decide, by decide, by decide⟩,
   C2_amended_rename [("h1", "data/test.txt")] [⟨"data/moved.txt", "h1"⟩]
     "h1" "data/test.txt" "data/moved.txt" (by decide) (by decide) (by decide)
     (by decide) (by decide) (by decide) (by decide)⟩

/-- Claim C3 (amended): a tracked path whose content changed is classified as
`new` — exactly one `new` row for that path, never a `changed` row; the
scanner has no `changed` branch and `LogManager.write_transaction` rejects
the type `changed`. -/
theorem C3_amended_changed_is_new (db : FilesDb) (walk : List ScanFile)
    (p hOld hNew : String)
    (hmem : (hOld, p) ∈ db)
    (hdiff : hOld ≠ hNew)
    (hlkNew : dbLookup db hNew = none)
    (hwmem : (⟨p, hNew⟩ : ScanFile) ∈ walk)
    (hpaths : (walk.map ScanFile.path).Nodup) :
    (scan db walk).1.filter (fun t => t.path == p) = [⟨"new", p, hNew, ""⟩] ∧
    (∀ t ∈ (scan db walk).1, t.type ≠ "changed") ∧
    write_transaction_check "changed" = .error "Invalid transaction type: changed" := by
  refine ⟨?_, ?_, by decide⟩
  · have hc : p ∈ walk.map ScanFile.path := List.mem_map.mpr ⟨⟨p, hNew⟩, hwmem, rfl⟩
    simp only [scan, scanWalk_eq, List.filter_append]
    rw [walk_filter_new db p hNew hlkNew walk hwmem hpaths,
        deleted_filter_current_nil db _ p hc, List.append_nil]
  · intro t ht
    rcases scan_only_emits_new_move_deleted db walk t ht with h1 | h1 | h1 <;> simp [h1]

/-- Witness for the amended C3: `data/test.txt` tracked with digest `h1`,
rescanned with digest `h2`. -/
theorem C3_amended_changed_is_new_witness :
    (("h1", "data/test.txt") ∈ ([("h1", "data/test.txt")] : FilesDb) ∧
     dbLookup [("h1", "data/test.txt")] "h2" = none) ∧
    ((scan [("h1", "data/test.txt")] [⟨"data/test.txt", "h2"⟩]).1.filter
        (fun t => t.path == "data/test.txt") = [⟨"new", "data/test.txt", "h2", ""⟩] ∧
     (∀ t ∈ (scan [("h1", "data/test.txt")] [⟨"data/test.txt", "h2"⟩]).1,
        t.type ≠ "changed") ∧
     write_transaction_check "changed" = .error "Invalid transaction type: changed") :=
  ⟨⟨by decide, by decide⟩,
   C3_amended_changed_is_new [("h1", "data/test.txt")] [⟨"data/test.txt", "h2"⟩]
     "data/test.txt" "h1" "h2" (by decide) (by decide) (by decide) (by decide) (by decide)⟩

/-- Witness for the amended C7 at a one-file repository: rescanning emits
nothing. -/
theorem C7_amended_rescan_empty_witness :
    ((([⟨"a.txt", "h"⟩] : List ScanFile).map ScanFile.hash).Nodup ∧
     (∀ e ∈ ([("h", "a.txt")] : FilesDb),
        e.2 ∈ ([⟨"a.txt", "h"⟩] : List ScanFile).map ScanFile.path)) ∧
    (scan (scan [("h", "a.txt")] [⟨"a.txt", "h"⟩]).2 [⟨"a.txt", "h"⟩]).1 = [] :=
  ⟨⟨by decide, by decide⟩,
   C7_amended_rescan_empty [("h", "a.txt")] [⟨"a.txt", "h"⟩] (by decide) (by decide)⟩

/-! ### Changelog-chain lemmas -/

theorem writeFile_fresh (cs : List (String × List Row)) (name : String) (rows : List Row)
    (h : name ∉ cs.map Prod.fst) : writeFile cs name rows = (name, rows) :: cs := by
  unfold writeFile
  rw [if_neg]
  intro hany
  rcases List.any_eq_true.mp hany with ⟨e, he, hkey⟩
  exact h (List.mem_map.mpr ⟨e, he, beq_iff_eq.mp hkey⟩)

theorem get_current_none_iff (s : RepoState) :
    get_current_changelog s = none ↔
      ∀ n ∈ changelogNames s, s.sigs.contains n = true := by
  unfold get_current_changelog
  rw [List.find?_eq_none]
  constructor
  · intro hall n hn
    have hmem : n ∈ (sortNames (changelogNames s)).reverse := by
      rw [List.mem_reverse, mem_sortNames]
      exact hn
    have := hall n hmem
    simpa using this
  · intro hall n hn
    rw [List.mem_reverse, mem_sortNames] at hn
    have hc := hall n hn
    rcases (by simpa [List.contains_eq_any_beq, List.any_eq_true] using hc :
        ∃ x ∈ s.sigs, n = x) with ⟨x, hx, rfl⟩
    simp [hc, hx]

theorem get_current_some_spec {s : RepoState} {n : String}
    (h : get_current_changelog s = some n) :
    n ∈ changelogNames s ∧ s.sigs.contains n = false := by
  unfold get_current_changelog at h
  have hmem := List.mem_of_find?_eq_some h
  have hpred := List.find?_some h
  rw [List.mem_reverse, mem_sortNames] at hmem
  exact ⟨hmem, by simpa using hpred⟩

/-- Claim C5 (amended): `create_new_changelog` raises exactly when an open
changelog exists; otherwise it creates exactly one new changelog, with a name
no existing file uses and no signature, containing only the header.  (The
name need not sort after the existing ones; see the counterexample.) -/
theorem C5_amended_create_new (s : RepoState)
    (hsigs : ∀ n ∈ s.sigs, n ∈ changelogNames s) :
    (∀ cur, get_current_changelog s = some cur →
      create_new_changelog s = .error ("There is already an open changelog: " ++ cur)) ∧
    (get_current_changelog s = none →
      ∃ name, name ∉ changelogNames s ∧ name ∉ s.sigs ∧
        create_new_changelog s =
          .ok (name, { s with changelogs := (name, []) :: s.changelogs })) := by
  constructor
  · intro cur hcur
    unfold create_new_changelog
    rw [hcur]
  · intro hnone
    have hlen : (changelogNames s).length = s.changelogs.length := by
      unfold changelogNames
      exact List.length_map _ _
    have hfresh : findFreshName (changelogNames s) s.today (s.changelogs.length + 1) 0 ∉
        changelogNames s := by
      rw [← hlen]
      exact findFreshName_not_mem _ _
    refine ⟨findFreshName (changelogNames s) s.today (s.changelogs.length + 1) 0,
      hfresh, fun hin => hfresh (hsigs _ hin), ?_⟩
    unfold create_new_changelog
    rw [hnone]
    simp only [Except.ok.injEq]
    rw [writeFile_fresh _ _ _ hfresh]

theorem contains_false_of_not_mem {l : List String} {a : String} (h : a ∉ l) :
    l.contains a = false := by
  cases hc : l.contains a with
  | false => rfl
  | true =>
      exfalso
      rcases (by simpa [List.contains_eq_any_beq, List.any_eq_true] using hc :
          ∃ x ∈ l, a = x) with ⟨x, hx, rfl⟩
      exact h hx

theorem mem_of_contains_true {l : List String} {a : String} (h : l.contains a = true) :
    a ∈ l := by
  rcases (by simpa [List.contains_eq_any_beq, List.any_eq_true] using h :
      ∃ x ∈ l, a = x) with ⟨x, hx, rfl⟩
  exact hx

theorem get_current_eq_of_unique (s : RepoState) (u : String)
    (hu : u ∈ changelogNames s) (husig : s.sigs.contains u = false)
    (hothers : ∀ n ∈ changelogNames s, s.sigs.contains n = false → n = u) :
    get_current_changelog s = some u := by
  unfold get_current_changelog
  cases hfind : ((sortNames (changelogNames s)).reverse).find?
      (fun n => !(s.sigs.contains n)) with
  | none =>
      rw [List.find?_eq_none] at hfind
      have := hfind u (by rw [List.mem_reverse, mem_sortNames]; exact hu)
      rw [husig] at this
      simp at this
  | some v =>
      have hmem := List.mem_of_find?_eq_some hfind
      have hpred := List.find?_some hfind
      rw [List.mem_reverse, mem_sortNames] at hmem
      have hv : s.sigs.contains v = false := by simpa using hpred
      rw [hothers v hmem hv]

theorem sign_file_seed_ok {s s1 : RepoState} (h : sign_file s .seed = .ok s1) :
    s1 = { s with seedSigned := true } := by
  unfold sign_file at h
  split at h
  · cases h
  · split at h
    · cases h
    · split at h
      · cases h
        rfl
      · cases h

theorem sign_file_changelog_ok {s s1 : RepoState} {n : String}
    (h : sign_file s (.changelog n) = .ok s1) : s1 = { s with sigs := n :: s.sigs } := by
  unfold sign_file at h
  split at h
  · cases h
  · split at h
    · cases h
    · split at h
      · cases h
        rfl
      · cases h

theorem appendRow_fresh_head (cs : List (String × List Row)) (name : String)
    (rows : List Row) (r : Row) (h : ∀ e ∈ cs, e.1 ≠ name) :
    appendRow ((name, rows) :: cs) name r = (name, rows ++ [r]) :: cs := by
  unfold appendRow
  rw [List.map_cons, if_pos (by simp)]
  congr 1
  have hmap : ∀ e ∈ cs, (if e.1 == name then (e.1, e.2 ++ [r]) else e) = e := by
    intro e he
    rw [if_neg (by simp [h e he])]
  rw [List.map_congr_left hmap]
  simp

theorem lookupRows_cons_ne (e : String × List Row) (cs : List (String × List Row))
    (n : String) (h : e.1 ≠ n) : lookupRows (e :: cs) n = lookupRows cs n := by
  unfold lookupRows
  rw [List.find?_cons_of_neg _ (by simp [h])]

theorem lookupRows_mem {cs : List (String × List Row)} {n : String}
    (h : n ∈ cs.map Prod.fst) :
    ∃ rows, lookupRows cs n = some rows ∧ (n, rows) ∈ cs := by
  induction cs with
  | nil => cases h
  | cons e es ih =>
      by_cases he : e.1 = n
      · refine ⟨e.2, ?_, ?_⟩
        · unfold lookupRows
          rw [List.find?_cons_of_pos _ (by simp [he])]
          rfl
        · rw [show (n, e.2) = e from by rw [← he]]
          exact List.mem_cons_self e es
      · have h2 : n ∈ es.map Prod.fst := by
          rw [List.map_cons] at h
          rcases List.mem_cons.mp h with h3 | h3
          · exact absurd h3.symm he
          · exact h3
        rcases ih h2 with ⟨rows, h3, h4⟩
        exact ⟨rows, by rw [lookupRows_cons_ne e es n he]; exact h3,
          List.mem_cons_of_mem e h4⟩

theorem filter_insertName_neg (x : String) (p : String → Bool) (hp : p x = false) :
    ∀ l : List String, (insertName x l).filter p = l.filter p := by
  intro l
  induction l with
  | nil => simp [insertName, hp]
  | cons y ys ih =>
      unfold insertName
      by_cases hlt : strLtb x y = true
      · rw [if_pos hlt]
        rw [List.filter_cons, List.filter_cons, if_neg (by simp [hp])]
      · rw [if_neg hlt]
        rw [List.filter_cons, List.filter_cons]
        by_cases hpy : p y = true
        · rw [if_pos hpy, if_pos hpy, ih]
        · rw [if_neg hpy, if_neg hpy, ih]

theorem latestSigned_after_create (s : RepoState) (newName : String)
    (rows : List Row) (hnot : s.sigs.contains newName = false) :
    latestSigned { s with changelogs := (newName, rows) :: s.changelogs } =
      latestSigned s := by
  unfold latestSigned
  show ((insertName newName (sortNames (changelogNames s))).filter
      (fun n => s.sigs.contains n)).getLast? = _
  rw [filter_insertName_neg newName _ hnot]

theorem latestSigned_spec {s : RepoState} {n : String} (h : latestSigned s = some n) :
    n ∈ changelogNames s ∧ s.sigs.contains n = true := by
  unfold latestSigned at h
  have hmem := List.mem_of_getLast?_eq_some h
  rcases List.mem_filter.mp hmem with ⟨hmem2, hsig⟩
  rw [mem_sortNames] at hmem2
  exact ⟨hmem2, hsig⟩

theorem create_new_ok {s : RepoState} (hnone : get_current_changelog s = none) :
    create_new_changelog s =
      .ok (findFreshName (changelogNames s) s.today (s.changelogs.length + 1) 0,
        { s with changelogs :=
            (findFreshName (changelogNames s) s.today (s.changelogs.length + 1) 0, []) ::
              s.changelogs }) ∧
    findFreshName (changelogNames s) s.today (s.changelogs.length + 1) 0 ∉
      changelogNames s := by
  have hlen : (changelogNames s).length = s.changelogs.length := List.length_map _ _
  have hfresh : findFreshName (changelogNames s) s.today (s.changelogs.length + 1) 0 ∉
      changelogNames s := by
    rw [← hlen]
    exact findFreshName_not_mem _ _
  refine ⟨?_, hfresh⟩
  unfold create_new_changelog
  rw [hnone]
  simp only [Except.ok.injEq]
  rw [writeFile_fresh _ _ _ hfresh]

theorem write_closing_ok_seed (hash : String → String) {s : RepoState} {cur : String}
    (hcur : get_current_changelog s = some cur) (hex : s.seedContent.isSome = true) :
    write_closing_transaction hash s (some .seed) =
      .ok ({ s with
              changelogs := appendRow s.changelogs cur
                { closingRowBase s with
                    path := "db/seed.bin",
                    blake3 := hash (s.seedContent.getD "") } }, true) := by
  unfold write_closing_transaction
  rw [hcur]
  simp only [fileRefExists, fileRefContent, hex, if_true]

theorem write_closing_ok_changelog (hash : String → String) {s : RepoState} {cur n : String}
    (hcur : get_current_changelog s = some cur)
    (hex : (changelogNames s).contains n = true) :
    write_closing_transaction hash s (some (.changelog n)) =
      .ok ({ s with
              changelogs := appendRow s.changelogs cur
                { closingRowBase s with
                    path := "changes/" ++ n,
                    blake3 :=
                      hash (renderChangelog ((lookupRows s.changelogs n).getD [])) } },
        true) := by
  unfold write_closing_transaction
  rw [hcur]
  simp only [fileRefExists, fileRefContent, hex, if_true]

theorem create_new_ok_fields {s : RepoState} (hnone : get_current_changelog s = none) :
    ∃ N s2, create_new_changelog s = .ok (N, s2) ∧
      N ∉ changelogNames s ∧
      s2.changelogs = (N, []) :: s.changelogs ∧
      s2.sigs = s.sigs ∧ s2.seedContent = s.seedContent ∧ s2.seedSigned = s.seedSigned ∧
      s2.now = s.now := by
  rcases create_new_ok hnone with ⟨hcr, hfr⟩
  exact ⟨_, _, hcr, hfr, rfl, rfl, rfl, rfl, rfl⟩

theorem sign_file_seed_fields {s s1 : RepoState} (h : sign_file s .seed = .ok s1) :
    s1.changelogs = s.changelogs ∧ s1.sigs = s.sigs ∧ s1.seedContent = s.seedContent ∧
      s1.seedSigned = true := by
  rw [sign_file_seed_ok h]
  exact ⟨rfl, rfl, rfl, rfl⟩

theorem sign_file_changelog_fields {s s1 : RepoState} {n : String}
    (h : sign_file s (.changelog n) = .ok s1) :
    s1.changelogs = s.changelogs ∧ s1.sigs = n :: s.sigs ∧ s1.seedContent = s.seedContent ∧
      s1.seedSigned = s.seedSigned := by
  rw [sign_file_changelog_ok h]
  exact ⟨rfl, rfl, rfl, rfl⟩

theorem get_current_congr {s t : RepoState} (hc : t.changelogs = s.changelogs)
    (hs : t.sigs = s.sigs) : get_current_changelog t = get_current_changelog s := by
  unfold get_current_changelog changelogNames
  rw [hc, hs]

theorem latestSigned_cons {s t : RepoState} {newName : String} {rows : List Row}
    (hch : t.changelogs = (newName, rows) :: s.changelogs) (hsg : t.sigs = s.sigs)
    (hnot : s.sigs.contains newName = false) :
    latestSigned t = latestSigned s := by
  unfold latestSigned changelogNames
  rw [hch, hsg]
  show ((insertName newName (sortNames (s.changelogs.map Prod.fst))).filter
      (fun n => s.sigs.contains n)).getLast? = _
  rw [filter_insertName_neg newName _ hnot]

/-! ### Media-packer lemmas -/

/-- Total size of one bin (statement helper for claim C8). -/
def groupSize (g : List Archive) : Nat := (g.map Archive.size).sum

theorem insertDesc_perm (x : Archive) (l : List Archive) :
    List.Perm (insertDesc x l) (x :: l) := by
  induction l with
  | nil => rfl
  | cons y ys ih =>
      unfold insertDesc
      by_cases h : sortKey y ≤ sortKey x
      · simp [h]
      · rw [if_neg h]
        exact (ih.cons y).trans (List.Perm.swap x y ys)

theorem sortDesc_perm (l : List Archive) : List.Perm (sortDesc l) l := by
  induction l with
  | nil => rfl
  | cons x xs ih => exact (insertDesc_perm x (sortDesc xs)).trans (ih.cons x)

theorem insertDesc_pairwise (x : Archive) (l : List Archive)
    (h : l.Pairwise (fun a b => sortKey b ≤ sortKey a)) :
    (insertDesc x l).Pairwise (fun a b => sortKey b ≤ sortKey a) := by
  induction l with
  | nil => simp [insertDesc]
  | cons y ys ih =>
      unfold insertDesc
      rw [List.pairwise_cons] at h
      by_cases hle : sortKey y ≤ sortKey x
      · rw [if_pos hle]
        refine List.Pairwise.cons ?_ (List.Pairwise.cons h.1 h.2)
        intro b hb
        rcases List.mem_cons.mp hb with rfl | hb'
        · exact hle
        · exact le_trans (h.1 b hb') hle
      · rw [if_neg hle]
        refine List.Pairwise.cons ?_ (ih h.2)
        intro b hb
        rcases List.mem_cons.mp ((insertDesc_perm x ys).mem_iff.mp hb) with rfl | hb'
        · exact le_of_not_le hle
        · exact h.1 b hb'

theorem sortDesc_pairwise (l : List Archive) :
    (sortDesc l).Pairwise (fun a b => sortKey b ≤ sortKey a) := by
  induction l with
  | nil => simp [sortDesc]
  | cons x xs ih => exact insertDesc_pairwise x (sortDesc xs) ih

theorem splitGo_join (cap : Nat) :
    ∀ (l curr : List Archive) (sz : Nat), (∀ a ∈ l, a.present = true) →
      (splitGo cap l curr sz).join = curr ++ l := by
  intro l
  induction l with
  | nil =>
      intro curr sz _
      unfold splitGo
      by_cases hc : curr.isEmpty = true
      · rw [if_pos hc]
        simp [List.isEmpty_iff.mp hc]
      · rw [if_neg hc]
        simp
  | cons a rest ih =>
      intro curr sz hp
      have hpa : a.present = true := hp a (List.mem_cons_self a rest)
      have hprest : ∀ b ∈ rest, b.present = true := fun b hb => hp b (List.mem_cons_of_mem a hb)
      unfold splitGo
      rw [if_neg (by simp [hpa])]
      by_cases hcl : sz + a.size > cap ∧ curr ≠ []
      · rw [if_pos hcl]
        simp only [List.join_cons, ih [a] a.size hprest]
        simp
      · rw [if_neg hcl, ih (curr ++ [a]) _ hprest]
        simp

theorem splitGo_groups_ne_nil (cap : Nat) :
    ∀ (l curr : List Archive) (sz : Nat), ∀ g ∈ splitGo cap l curr sz, g ≠ [] := by
  intro l
  induction l with
  | nil =>
      intro curr sz g hg
      unfold splitGo at hg
      by_cases hc : curr.isEmpty = true
      · rw [if_pos hc] at hg
        cases hg
      · rw [if_neg hc] at hg
        rw [List.mem_singleton.mp hg]
        intro he
        exact hc (by simp [he])
  | cons a rest ih =>
      intro curr sz g hg
      unfold splitGo at hg
      by_cases hpa : a.present = false
      · rw [if_pos hpa] at hg
        exact ih curr sz g hg
      · rw [if_neg hpa] at hg
        by_cases hcl : sz + a.size > cap ∧ curr ≠ []
        · rw [if_pos hcl] at hg
          rcases List.mem_cons.mp hg with rfl | hg'
          · exact hcl.2
          · exact ih [a] a.size g hg'
        · rw [if_neg hcl] at hg
          exact ih (curr ++ [a]) _ g hg

theorem splitGo_size_bound (cap : Nat) :
    ∀ (l curr : List Archive) (sz : Nat),
      (∀ a ∈ l, a.present = true) →
      sz = groupSize curr →
      (groupSize curr ≤ cap ∨ ∃ a, curr = [a]) →
      ∀ g ∈ splitGo cap l curr sz, groupSize g ≤ cap ∨ ∃ a, g = [a] := by
  intro l
  induction l with
  | nil =>
      intro curr sz _ hsz hinv g hg
      unfold splitGo at hg
      by_cases hc : curr.isEmpty = true
      · rw [if_pos hc] at hg
        cases hg
      · rw [if_neg hc] at hg
        rw [List.mem_singleton.mp hg]
        exact hinv
  | cons a rest ih =>
      intro curr sz hp hsz hinv g hg
      have hpa := hp a (List.mem_cons_self a rest)
      have hprest : ∀ b ∈ rest, b.present = true := fun b hb => hp b (List.mem_cons_of_mem a hb)
      unfold splitGo at hg
      rw [if_neg (by simp [hpa])] at hg
      by_cases hcl : sz + a.size > cap ∧ curr ≠ []
      · rw [if_pos hcl] at hg
        rcases List.mem_cons.mp hg with rfl | hg'
        · exact hinv
        · exact ih [a] a.size hprest (by simp [groupSize]) (.inr ⟨a, rfl⟩) g hg'
      · rw [if_neg hcl] at hg
        push_neg at hcl
        refine ih (curr ++ [a]) (sz + a.size) hprest ?_ ?_ g hg
        · simp [groupSize, hsz]
        · by_cases hfit : sz + a.size ≤ cap
          · left
            simp only [groupSize, List.map_append, List.sum_append, List.map_cons,
              List.map_nil, List.sum_cons, List.sum_nil]
            simp only [groupSize] at hsz
            omega
          · right
            have hcur : curr = [] := hcl (lt_of_not_le hfit)
            exact ⟨a, by rw [hcur, List.nil_append]⟩

theorem map_contents_mapIdx (l : List (List Archive)) (base : String) :
    ((l.mapIdx (fun i g =>
        ({ baseName := base, discNum := some (i + 1), contents := g } : MediaImage))).map
      MediaImage.contents) = l := by
  apply List.ext_getElem?
  intro i
  rw [List.getElem?_map, List.getElem?_mapIdx]
  cases l[i]? <;> simp

/-! ### Repository-initialization lemmas -/

theorem db_insert_config_ok_any {key val descr : String}
    {tbl t : List (String × String × String)}
    (h : db_insert_config key val descr tbl = .ok t) :
    t.any (fun r => r.1 == key) = true := by
  unfold db_insert_config at h
  split at h
  · cases h
  · injection h with h
    subst h
    simp [List.any_append]

theorem db_insert_config_ok_any_mono {key val descr key2 : String}
    {tbl t : List (String × String × String)}
    (h : db_insert_config key val descr tbl = .ok t)
    (hm : tbl.any (fun r => r.1 == key2) = true) :
    t.any (fun r => r.1 == key2) = true := by
  unfold db_insert_config at h
  split at h
  · cases h
  · injection h with h
    subst h
    simp [List.any_append, hm]

/-! ### Concrete states used by witnesses and counterexamples -/

/-- A path never initialized: no directories, no cache database, no seed. -/
def exInit0 : InitState :=
  { dbDirExists := false, changesDirExists := false, cacheDb := none,
    seedContent := none, configContent := none }

/-- The repository produced by `Repository.initialize` on `exInit0` with name
`repo`, RNG output `rngA` and config text `cfgA`. -/
def exInitDone : InitState :=
  { dbDirExists := true, changesDirExists := true,
    cacheDb := some [("repository.name", "repo", "Repository name"),
      ("hash.algorithms", "blake3,sha256",
        "Hash algorithms used for file integrity")],
    seedContent := some "rngA", configContent := some "cfgA" }

/-- A repository with exactly one changelog, which is open (unsigned). -/
def exOpen : RepoState :=
  { changelogs := [("changelog-2025-05-02.csv", [])], sigs := [],
    seedContent := some "SEED", seedSigned := true, today := "2025-05-02",
    now := "2025-05-02 10:00:00 UTC", keyConfigured := true, pubConfigured := true,
    keyExists := true, signWorks := true }

/-- A repository that already ran a lifecycle call today: the changelog named
with today's date exists and is sealed. -/
def exSameDay : RepoState :=
  { changelogs := [("changelog-2025-05-02.csv", [])], sigs := ["changelog-2025-05-02.csv"],
    seedContent := some "SEED", seedSigned := true, today := "2025-05-02",
    now := "2025-05-02 11:00:00 UTC", keyConfigured := true, pubConfigured := true,
    keyExists := true, signWorks := true }

/-! ### Claims -/

/-- Claim C9: `handle_closing_command` performs exactly the same state
transition and produces the same result as `handle_start_command` on every
repository state and password. -/
theorem C9_closing_equals_start (hash : String → String) (s : RepoState)
    (password : Option String) :
    handle_closing_command hash s password = handle_start_command hash s password := rfl

/-- Claim C6: on a path that already contains an initialized repository (any
state produced by a successful `Repository.initialize`), running
initialization again raises `RepositoryError` — the duplicate
`INSERT INTO config` hits the `key` primary key and raises
`sqlite3.IntegrityError` before `_create_seed` runs — and leaves the whole
state, in particular `db/seed.bin`, byte-for-byte unchanged; the directory
creation that does run first is idempotent. -/
theorem C6_reinit_preserves_seed (name rng cfg name2 rng2 cfg2 : String)
    (st0 st : InitState)
    (h : repository_init name rng cfg st0 = (Except.ok (), st)) :
    (repository_init name2 rng2 cfg2 st).1 =
      Except.error
        "Failed to initialize repository: UNIQUE constraint failed: config.key" ∧
    (repository_init name2 rng2 cfg2 st).2 = st := by
  unfold repository_init at h
  cases hdb : repo_initialize_database name (repo_create_dirs st0) with
  | error e =>
    simp only [hdb] at h
    simp at h
  | ok st2 =>
    simp only [hdb] at h
    have hst : repo_create_config cfg (repo_create_seed rng st2) = st := congrArg Prod.snd h
    unfold repo_initialize_database at hdb
    cases h1 : db_insert_config "repository.name" name "Repository name"
        ((repo_create_dirs st0).cacheDb.getD []) with
    | error e1 =>
      simp only [h1] at hdb
      cases hdb
    | ok t1 =>
      simp only [h1] at hdb
      cases h2 : db_insert_config "hash.algorithms" "blake3,sha256"
          "Hash algorithms used for file integrity" t1 with
      | error e2 =>
        simp only [h2] at hdb
        cases hdb
      | ok t2 =>
        simp only [h2] at hdb
        injection hdb with hdb
        have hmem1 : t1.any (fun r => r.1 == "repository.name") = true :=
          db_insert_config_ok_any h1
        have hmem2 : t2.any (fun r => r.1 == "repository.name") = true :=
          db_insert_config_ok_any_mono h2 hmem1
        subst hdb
        subst hst
        constructor
        · simp [repository_init, repo_create_dirs, repo_create_seed, repo_create_config,
            repo_initialize_database, db_insert_config, hmem2]
        · simp [repository_init, repo_create_dirs, repo_create_seed, repo_create_config,
            repo_initialize_database, db_insert_config, hmem2]

theorem C6_witness :
    (repository_init "repo" "rngB" "cfgB" exInitDone).1 =
      Except.error
        "Failed to initialize repository: UNIQUE constraint failed: config.key" ∧
    (repository_init "repo" "rngB" "cfgB" exInitDone).2 = exInitDone :=
  C6_reinit_preserves_seed "repo" "rngA" "cfgA" "repo" "rngB" "cfgB"
    exInit0 exInitDone (by decide)

/-- Claim C10: with an open changelog present, `write_closing_transaction`
succeeds even when `prev_file` is absent or names a non-existent file — the
appended `closing` row then has empty `path` and `blake3` — and it raises
exactly when there is no open changelog. -/
theorem C10_write_closing_absent_prev (hash : String → String) (s : RepoState)
    (prev : Option FileRef)
    (hprev : prev = none ∨ ∃ f, prev = some f ∧ fileRefExists s f = false) :
    (∀ cur, get_current_changelog s = some cur →
      write_closing_transaction hash s prev =
        .ok ({ s with changelogs := appendRow s.changelogs cur (closingRowBase s) }, true) ∧
      (closingRowBase s).path = "" ∧ (closingRowBase s).blake3 = "") ∧
    (get_current_changelog s = none →
      write_closing_transaction hash s prev =
        .error "No open changelog file. Run help start command first.") := by
  constructor
  · intro cur hcur
    rcases hprev with rfl | ⟨f, rfl, hf⟩
    · exact ⟨by simp [write_closing_transaction, hcur], rfl, rfl⟩
    · refine ⟨?_, rfl, rfl⟩
      simp only [write_closing_transaction, hcur, hf]
      cases f <;> simp [hf]
  · intro hnone
    rcases hprev with rfl | ⟨f, rfl, hf⟩ <;> simp [write_closing_transaction, hnone]

/-- Witness for C10 at the concrete one-open-changelog state with
`prev_file = None`. -/
theorem C10_witness :
    ((none : Option FileRef) = none ∨
      ∃ f, (none : Option FileRef) = some f ∧ fileRefExists exOpen f = false) ∧
    write_closing_transaction (fun c => c) exOpen none =
      .ok ({ exOpen with
              changelogs :=
                appendRow exOpen.changelogs "changelog-2025-05-02.csv"
                  (closingRowBase exOpen) }, true) :=
  ⟨Or.inl rfl,
    (((C10_write_closing_absent_prev (fun c => c) exOpen none (Or.inl rfl)).1
      "changelog-2025-05-02.csv" (by decide)).1)⟩

/-- Counterexample to claim C5: in `exSameDay` (today's changelog already
exists and is sealed) `create_new_changelog` succeeds, but the new name
`changelog-2025-05-02-1.csv` sorts lexicographically before the existing
`changelog-2025-05-02.csv`, so the open changelog is not lexically last. -/
theorem C5_counterexample :
    create_new_changelog exSameDay =
      .ok ("changelog-2025-05-02-1.csv",
        { exSameDay with changelogs :=
            [("changelog-2025-05-02-1.csv", []), ("changelog-2025-05-02.csv", [])] }) ∧
    strLtb "changelog-2025-05-02-1.csv" "changelog-2025-05-02.csv" = true := by decide

/-- Counterexample to claim C2: renaming the single tracked file
`data/test.txt` to `data/moved.txt` makes `FileMonitor.scan` emit a `move`
row and also a `deleted` row for the old path, because the deletion sweep
consults the unmodified `known_files` snapshot. -/
theorem C2_counterexample :
    scan [("h1", "data/test.txt")] [⟨"data/moved.txt", "h1"⟩] =
      ([⟨"move", "data/moved.txt", "h1", "data/test.txt"⟩,
        ⟨"deleted", "data/test.txt", "h1", ""⟩],
       [("h1", "data/moved.txt")]) ∧
    (⟨"deleted", "data/test.txt", "h1", ""⟩ : Txn) ∈
      (scan [("h1", "data/test.txt")] [⟨"data/moved.txt", "h1"⟩]).1 := by decide

/-- Counterexample to claim C3: a tracked path whose content changed (digest
`h1` to `h2`) is classified `new` by `FileMonitor.scan`, not `changed`; no
`changed` row exists anywhere — `LogManager.write_transaction` does not even
accept the type `changed`. -/
theorem C3_counterexample :
    scan [("h1", "data/test.txt")] [⟨"data/test.txt", "h2"⟩] =
      ([⟨"new", "data/test.txt", "h2", ""⟩],
       [("h2", "data/test.txt"), ("h1", "data/test.txt")]) ∧
    (∀ t ∈ (scan [("h1", "data/test.txt")] [⟨"data/test.txt", "h2"⟩]).1,
        t.type ≠ "changed") ∧
    logValidTypes.contains "changed" = false := by decide

/-- Counterexample to claim C7: with a database entry whose file is gone,
`FileMonitor.scan` emits a `deleted` row, does not update the database, and a
second scan with no filesystem change emits the same `deleted` row again
instead of zero rows. -/
theorem C7_counterexample :
    (scan [("h1", "gone.txt")] []).1 = [⟨"deleted", "gone.txt", "h1", ""⟩] ∧
    (scan (scan [("h1", "gone.txt")] []).2 []).1 = [⟨"deleted", "gone.txt", "h1", ""⟩] ∧
    (scan (scan [("h1", "gone.txt")] []).2 []).1 ≠ [] := by decide

/-- Counterexample to claim C8: a single 26 GiB archive exceeds the BD-R
capacity, so `pack_for_bd_r` takes the splitting branch and produces exactly
one image that nevertheless carries a `-disc1` suffix; moreover the grouping
of `split_archives_for_media` keeps only one open bin and differs from
first-fit-decreasing on sizes 7,6,4,3 with capacity 10. -/
theorem C8_counterexample :
    (pack_for_bd_r [⟨"snapshot.tar.gz", 27917287424, true⟩] "out").length = 1 ∧
    pack_for_bd_r [⟨"snapshot.tar.gz", 27917287424, true⟩] "out" =
      [{ baseName := "out", discNum := some 1,
         contents := [⟨"snapshot.tar.gz", 27917287424, true⟩] }] ∧
    split_archives_for_media
        [⟨"a", 7, true⟩, ⟨"b", 6, true⟩, ⟨"c", 4, true⟩, ⟨"d", 3, true⟩] 10 ≠
      firstFitDecreasing
        [⟨"a", 7, true⟩, ⟨"b", 6, true⟩, ⟨"c", 4, true⟩, ⟨"d", 3, true⟩] 10 := by decide

/-- A repository with one open changelog whose signing tool fails. -/
def exOpenNoSign : RepoState := { exOpen with signWorks := false }

/-- Claim C4: when the lifecycle call has an artifact to sign (an open
changelog exists, or the seed is unsigned) and signing that anchor fails,
`start_closing` reports failure and returns the state unchanged — in
particular the changelog files and detached signatures on disk are exactly
those from before the call. -/
theorem C4_sign_failure_state_unchanged (hash : String → String) (s : RepoState)
    (password : Option String)
    (hneed : get_current_changelog s ≠ none ∨ s.seedSigned = false)
    (hfail : ∃ e, sign_file s
        (match get_current_changelog s with
         | some n => FileRef.changelog n
         | none => FileRef.seed) = .error e) :
    (∃ e, start_closing hash s password = .error e) ∨
    (∃ msg, start_closing hash s password = .ok ((false, msg), s)) := by
  rcases hfail with ⟨e, he⟩
  unfold start_closing
  by_cases hk : s.keyConfigured = false ∨ s.pubConfigured = false
  · rw [if_pos hk]
    exact .inl ⟨_, rfl⟩
  · rw [if_neg hk]
    cases hcur : get_current_changelog s with
    | some cur =>
        rw [hcur] at he
        simp [he]
    | none =>
        rcases hneed with hno | hseed
        · exact absurd hcur hno
        · rw [hcur] at he
          simp [hseed, he]

/-- Witness for C4: the open changelog of `exOpenNoSign` cannot be signed, so
the lifecycle call fails and hands back the untouched state. -/
theorem C4_witness :
    (get_current_changelog exOpenNoSign ≠ none ∨ exOpenNoSign.seedSigned = false) ∧
    ((∃ e, start_closing (fun c => c) exOpenNoSign none = .error e) ∨
     (∃ msg, start_closing (fun c => c) exOpenNoSign none = .ok ((false, msg), exOpenNoSign))) :=
  ⟨Or.inl (by decide),
   C4_sign_failure_state_unchanged (fun c => c) exOpenNoSign none (Or.inl (by decide))
     ⟨"Failed to sign file", by decide⟩⟩

/-- Witness for the amended C5 at `exSameDay`: no open changelog, so a fresh
one is created under an unused name. -/
theorem C5_amended_create_new_witness :
    (∀ n ∈ exSameDay.sigs, n ∈ changelogNames exSameDay) ∧
    (∃ name, name ∉ changelogNames exSameDay ∧ name ∉ exSameDay.sigs ∧
      create_new_changelog exSameDay =
        Except.ok (name, { exSameDay with changelogs := (name, []) :: exSameDay.changelogs })) := by
  refine ⟨?_, ?_⟩
  · decide
  · exact (C5_amended_create_new exSameDay (by decide)).2 (by decide)


/-- Two concrete archives for the C8 witness. -/
def exArchives : List Archive := [⟨"repo.tar.gz", 5, true⟩, ⟨"ext.tar.gz", 3, true⟩]

/-- Claim C8 (amended): the packer sorts archives descending by size (stable)
and groups them greedily with a single open bin (next-fit decreasing); the
groups partition the sorted list, are non-empty, and stay within the capacity
unless a single archive alone exceeds it; each bin becomes exactly one image,
and the `-discN` suffix is applied exactly when the total size exceeds the
capacity. -/
theorem C8_amended_pack (archives : List Archive) (base : String)
    (hne : archives ≠ [])
    (hpres : ∀ a ∈ archives, a.present = true) :
    List.Perm (sortDesc archives) archives ∧
    (sortDesc archives).Pairwise (fun a b => sortKey b ≤ sortKey a) ∧
    (split_archives_for_media archives BD_R_SINGLE_LAYER_CAPACITY).join = sortDesc archives ∧
    (∀ g ∈ split_archives_for_media archives BD_R_SINGLE_LAYER_CAPACITY,
      g ≠ [] ∧ (groupSize g ≤ BD_R_SINGLE_LAYER_CAPACITY ∨ ∃ a, g = [a])) ∧
    (calculate_archives_size archives ≤ BD_R_SINGLE_LAYER_CAPACITY →
      (pack_for_bd_r archives base).map MediaImage.contents = [archives] ∧
      ∀ img ∈ pack_for_bd_r archives base, img.discNum = none) ∧
    (BD_R_SINGLE_LAYER_CAPACITY < calculate_archives_size archives →
      (pack_for_bd_r archives base).map MediaImage.contents =
        split_archives_for_media archives BD_R_SINGLE_LAYER_CAPACITY ∧
      ∀ img ∈ pack_for_bd_r archives base, img.discNum ≠ none) := by
  have hperm := sortDesc_perm archives
  have hpres2 : ∀ a ∈ sortDesc archives, a.present = true := fun a ha =>
    hpres a (hperm.mem_iff.mp ha)
  refine ⟨hperm, sortDesc_pairwise archives, ?_, ?_, ?_, ?_⟩
  · unfold split_archives_for_media
    rw [splitGo_join _ _ _ _ hpres2]
    rfl
  · intro g hg
    exact ⟨splitGo_groups_ne_nil _ _ _ _ g hg,
      splitGo_size_bound _ _ _ _ hpres2 (by simp [groupSize]) (.inl (by simp [groupSize])) g hg⟩
  · intro hle
    unfold pack_for_bd_r
    rw [if_pos hle]
    refine ⟨rfl, ?_⟩
    intro img himg
    rw [List.mem_singleton.mp himg]
  · intro hgt
    unfold pack_for_bd_r
    rw [if_neg (not_le.mpr hgt)]
    refine ⟨map_contents_mapIdx _ base, ?_⟩
    intro img himg
    rcases List.mem_mapIdx.mp himg with ⟨i, hi, heq⟩
    rw [← heq]
    simp

/-- Witness for the amended C8 at two small archives that fit one disc. -/
theorem C8_amended_pack_witness :
    (exArchives ≠ [] ∧ ∀ a ∈ exArchives, a.present = true) ∧
    (List.Perm (sortDesc exArchives) exArchives ∧
     (sortDesc exArchives).Pairwise (fun a b => sortKey b ≤ sortKey a) ∧
     (split_archives_for_media exArchives BD_R_SINGLE_LAYER_CAPACITY).join =
        sortDesc exArchives ∧
     (∀ g ∈ split_archives_for_media exArchives BD_R_SINGLE_LAYER_CAPACITY,
        g ≠ [] ∧ (groupSize g ≤ BD_R_SINGLE_LAYER_CAPACITY ∨ ∃ a, g = [a])) ∧
     (calculate_archives_size exArchives ≤ BD_R_SINGLE_LAYER_CAPACITY →
        (pack_for_bd_r exArchives "out").map MediaImage.contents = [exArchives] ∧
        ∀ img ∈ pack_for_bd_r exArchives "out", img.discNum = none) ∧
     (BD_R_SINGLE_LAYER_CAPACITY < calculate_archives_size exArchives →
        (pack_for_bd_r exArchives "out").map MediaImage.contents =
          split_archives_for_media exArchives BD_R_SINGLE_LAYER_CAPACITY ∧
        ∀ img ∈ pack_for_bd_r exArchives "out", img.discNum ≠ none)) :=
  ⟨⟨by decide, by decide⟩, C8_amended_pack exArchives "out" (by decide) (by decide)⟩

/-- Claim C1: whenever `start_closing` succeeds, the newly created changelog
holds exactly one row after the header: a `closing` transaction whose `path`
names the seed (`db/seed.bin`) or a previous changelog (`changes/<name>`) and
whose `blake3` is the digest of that referenced file's content at the time
the row is written; the seed is referenced in the genesis case and the
just-signed changelog when one was open. -/
theorem C1_closing_row_binds_anchor (hash : String → String) (s : RepoState)
    (password : Option String)
    (hone : ∀ a ∈ changelogNames s, ∀ b ∈ changelogNames s,
      s.sigs.contains a = false → s.sigs.contains b = false → a = b)
    (hsigs : ∀ n ∈ s.sigs, n ∈ changelogNames s)
    (hseed : s.seedContent.isSome = true)
    {m : String} {s1 : RepoState}
    (hsucc : start_closing hash s password = .ok ((true, m), s1)) :
    ∃ newName row,
      newName ∉ changelogNames s ∧
      s1.changelogs = (newName, [row]) :: s.changelogs ∧
      row.transaction_type = "closing" ∧
      ((row.path = "db/seed.bin" ∧ row.blake3 = hash (s.seedContent.getD "")) ∨
       (∃ prev rows, (prev, rows) ∈ s.changelogs ∧
          row.path = "changes/" ++ prev ∧ row.blake3 = hash (renderChangelog rows))) ∧
      (get_current_changelog s = none ∧ s.seedSigned = false → row.path = "db/seed.bin") ∧
      (∀ cur, get_current_changelog s = some cur → row.path = "changes/" ++ cur) := by
  unfold start_closing at hsucc
  by_cases hk : s.keyConfigured = false ∨ s.pubConfigured = false
  · rw [if_pos hk] at hsucc
    cases hsucc
  · rw [if_neg hk] at hsucc
    cases hcur : get_current_changelog s with
    | none =>
        simp only [hcur] at hsucc
        by_cases hss : s.seedSigned = false
        · rw [if_pos hss] at hsucc
          cases hsign : sign_file s FileRef.seed with
          | error e =>
              simp only [hsign] at hsucc
              simp at hsucc
          | ok sA =>
              simp only [hsign] at hsucc
              obtain ⟨hAch, hAsg, hAsc, hAsd⟩ := sign_file_seed_fields hsign
              have hcurA : get_current_changelog sA = none := by
                rw [get_current_congr hAch hAsg]
                exact hcur
              rcases create_new_ok_fields hcurA with
                ⟨N, sB, hcr, hNfrA, hBch, hBsg, hBsc, hBsd, hBnow⟩
              simp only [hcr] at hsucc
              have hNfr : N ∉ changelogNames s := by
                intro hin
                apply hNfrA
                unfold changelogNames
                rw [hAch]
                exact hin
              have hBch2 : sB.changelogs = (N, []) :: s.changelogs := by rw [hBch, hAch]
              have hBsg2 : sB.sigs = s.sigs := by rw [hBsg, hAsg]
              have hBsc2 : sB.seedContent = s.seedContent := by rw [hBsc, hAsc]
              have hnamesB : changelogNames sB = N :: changelogNames s := by
                unfold changelogNames
                rw [hBch2]
                rfl
              have hNsig : s.sigs.contains N = false :=
                contains_false_of_not_mem (fun hin => hNfr (hsigs N hin))
              have hcurB : get_current_changelog sB = some N := by
                apply get_current_eq_of_unique sB N
                · rw [hnamesB]
                  exact List.mem_cons_self _ _
                · rw [hBsg2]
                  exact hNsig
                · intro n hn hnsig
                  rw [hnamesB] at hn
                  rcases List.mem_cons.mp hn with rfl | hn2
                  · rfl
                  · exfalso
                    rw [hBsg2] at hnsig
                    have hall := (get_current_none_iff s).mp hcur n hn2
                    rw [hall] at hnsig
                    cases hnsig
              have hexB : sB.seedContent.isSome = true := by
                rw [hBsc2]
                exact hseed
              simp only [write_closing_ok_seed hash hcurB hexB] at hsucc
              simp only [Except.ok.injEq, Prod.mk.injEq] at hsucc
              obtain ⟨⟨-, -⟩, hs1⟩ := hsucc
              refine ⟨N, { closingRowBase sB with
                  path := "db/seed.bin",
                  blake3 := hash (sB.seedContent.getD "") },
                hNfr, ?_, rfl, ?_, ?_, ?_⟩
              · rw [← hs1]
                show appendRow sB.changelogs N _ = _
                have hne2 : ∀ e ∈ s.changelogs, e.1 ≠ N := fun e he hc =>
                  hNfr (hc ▸ List.mem_map.mpr ⟨e, he, rfl⟩)
                rw [hBch2, appendRow_fresh_head s.changelogs N [] _ hne2]
                rfl
              · left
                refine ⟨rfl, ?_⟩
                show hash (sB.seedContent.getD "") = _
                rw [hBsc2]
              · intro _
                rfl
              · intro c hc
                cases hc
        · rw [if_neg hss] at hsucc
          rcases create_new_ok_fields hcur with
            ⟨N, sB, hcr, hNfr, hBch, hBsg, hBsc, hBsd, hBnow⟩
          simp only [hcr] at hsucc
          have hnamesB : changelogNames sB = N :: changelogNames s := by
            unfold changelogNames
            rw [hBch]
            rfl
          have hNsig : s.sigs.contains N = false :=
            contains_false_of_not_mem (fun hin => hNfr (hsigs N hin))
          have hcurB : get_current_changelog sB = some N := by
            apply get_current_eq_of_unique sB N
            · rw [hnamesB]
              exact List.mem_cons_self _ _
            · rw [hBsg]
              exact hNsig
            · intro n hn hnsig
              rw [hnamesB] at hn
              rcases List.mem_cons.mp hn with rfl | hn2
              · rfl
              · exfalso
                rw [hBsg] at hnsig
                have hall := (get_current_none_iff s).mp hcur n hn2
                rw [hall] at hnsig
                cases hnsig
          have hne2 : ∀ e ∈ s.changelogs, e.1 ≠ N := fun e he hc =>
            hNfr (hc ▸ List.mem_map.mpr ⟨e, he, rfl⟩)
          have hls2 : latestSigned sB = latestSigned s := latestSigned_cons hBch hBsg hNsig
          cases hls : latestSigned s with
          | none =>
              rw [hls] at hls2
              simp only [hls2] at hsucc
              have hexB : sB.seedContent.isSome = true := by
                rw [hBsc]
                exact hseed
              simp only [write_closing_ok_seed hash hcurB hexB] at hsucc
              simp only [Except.ok.injEq, Prod.mk.injEq] at hsucc
              obtain ⟨⟨-, -⟩, hs1⟩ := hsucc
              refine ⟨N, { closingRowBase sB with
                  path := "db/seed.bin",
                  blake3 := hash (sB.seedContent.getD "") },
                hNfr, ?_, rfl, ?_, ?_, ?_⟩
              · rw [← hs1]
                show appendRow sB.changelogs N _ = _
                rw [hBch, appendRow_fresh_head s.changelogs N [] _ hne2]
                rfl
              · left
                refine ⟨rfl, ?_⟩
                show hash (sB.seedContent.getD "") = _
                rw [hBsc]
              · intro hpre
                exact absurd hpre.2 hss
              · intro c hc
                cases hc
          | some prevN =>
              rw [hls] at hls2
              simp only [hls2] at hsucc
              obtain ⟨hprevMem, hprevSig⟩ := latestSigned_spec hls
              have hexPrev : (changelogNames sB).contains prevN = true := by
                rw [hnamesB]
                exact contains_true_of_mem (List.mem_cons_of_mem _ hprevMem)
              simp only [write_closing_ok_changelog hash hcurB hexPrev] at hsucc
              simp only [Except.ok.injEq, Prod.mk.injEq] at hsucc
              obtain ⟨⟨-, -⟩, hs1⟩ := hsucc
              have hNneP : N ≠ prevN := fun hc => hNfr (hc ▸ hprevMem)
              rcases lookupRows_mem (show prevN ∈ s.changelogs.map Prod.fst from hprevMem)
                with ⟨rows, hlook, hmemrows⟩
              have hlookB : lookupRows sB.changelogs prevN = some rows := by
                rw [hBch, lookupRows_cons_ne _ _ _ hNneP]
                exact hlook
              refine ⟨N, { closingRowBase sB with
                  path := "changes/" ++ prevN,
                  blake3 := hash (renderChangelog ((lookupRows sB.changelogs prevN).getD [])) },
                hNfr, ?_, rfl, ?_, ?_, ?_⟩
              · rw [← hs1]
                show appendRow sB.changelogs N _ = _
                rw [hBch, appendRow_fresh_head s.changelogs N [] _ hne2]
                rfl
              · right
                exact ⟨prevN, rows, hmemrows, rfl, by rw [hlookB]; rfl⟩
              · intro hpre
                exact absurd hpre.2 hss
              · intro c hc
                cases hc
    | some cur =>
        simp only [hcur] at hsucc
        obtain ⟨hcurMem, hcurSig⟩ := get_current_some_spec hcur
        cases hsign : sign_file s (FileRef.changelog cur) with
        | error e =>
            simp only [hsign] at hsucc
            simp at hsucc
        | ok sA =>
            simp only [hsign] at hsucc
            obtain ⟨hAch, hAsg, hAsc, hAsd⟩ := sign_file_changelog_fields hsign
            have hcurA : get_current_changelog sA = none := by
              rw [get_current_none_iff]
              intro n hn
              have hn2 : n ∈ changelogNames s := by
                unfold changelogNames at hn ⊢
                rw [hAch] at hn
                exact hn
              rw [hAsg, List.contains_cons]
              by_cases hnc : n = cur
              · simp [hnc]
              · cases hsg : s.sigs.contains n with
                | true => simp [hsg]
                | false =>
                    exfalso
                    exact hnc (hone n hn2 cur hcurMem hsg hcurSig)
            rcases create_new_ok_fields hcurA with
              ⟨N, sB, hcr, hNfrA, hBch, hBsg, hBsc, hBsd, hBnow⟩
            simp only [hcr] at hsucc
            have hNfr : N ∉ changelogNames s := by
              intro hin
              apply hNfrA
              unfold changelogNames
              rw [hAch]
              exact hin
            have hBch2 : sB.changelogs = (N, []) :: s.changelogs := by rw [hBch, hAch]
            have hBsg2 : sB.sigs = cur :: s.sigs := by rw [hBsg, hAsg]
            have hnamesB : changelogNames sB = N :: changelogNames s := by
              unfold changelogNames
              rw [hBch2]
              rfl
            have hNneCur : N ≠ cur := fun hc => hNfr (hc ▸ hcurMem)
            have hNsigB : sB.sigs.contains N = false := by
              rw [hBsg2, List.contains_cons]
              have h1 : (N == cur) = false := beq_eq_false_iff_ne.mpr hNneCur
              have h2 : s.sigs.contains N = false :=
                contains_false_of_not_mem (fun hin => hNfr (hsigs N hin))
              rw [h1, h2]
              rfl
            have hcurB : get_current_changelog sB = some N := by
              apply get_current_eq_of_unique sB N
              · rw [hnamesB]
                exact List.mem_cons_self _ _
              · exact hNsigB
              · intro n hn hnsig
                rw [hnamesB] at hn
                rcases List.mem_cons.mp hn with rfl | hn2
                · rfl
                · exfalso
                  rw [hBsg2, List.contains_cons] at hnsig
                  rcases Bool.or_eq_false_iff.mp hnsig with ⟨hb1, hb2⟩
                  have hnc := hone n hn2 cur hcurMem hb2 hcurSig
                  rw [hnc] at hb1
                  simp at hb1
            have hexCur : (changelogNames sB).contains cur = true := by
              rw [hnamesB]
              exact contains_true_of_mem (List.mem_cons_of_mem _ hcurMem)
            simp only [write_closing_ok_changelog hash hcurB hexCur] at hsucc
            simp only [Except.ok.injEq, Prod.mk.injEq] at hsucc
            obtain ⟨⟨-, -⟩, hs1⟩ := hsucc
            rcases lookupRows_mem (show cur ∈ s.changelogs.map Prod.fst from hcurMem)
              with ⟨rows, hlook, hmemrows⟩
            have hlookB : lookupRows sB.changelogs cur = some rows := by
              rw [hBch2, lookupRows_cons_ne _ _ _ hNneCur]
              exact hlook
            refine ⟨N, { closingRowBase sB with
                path := "changes/" ++ cur,
                blake3 := hash (renderChangelog ((lookupRows sB.changelogs cur).getD [])) },
              hNfr, ?_, rfl, ?_, ?_, ?_⟩
            · rw [← hs1]
              show appendRow sB.changelogs N _ = _
              have hne2 : ∀ e ∈ s.changelogs, e.1 ≠ N := fun e he hc =>
                hNfr (hc ▸ List.mem_map.mpr ⟨e, he, rfl⟩)
              rw [hBch2, appendRow_fresh_head s.changelogs N [] _ hne2]
              rfl
            · right
              exact ⟨cur, rows, hmemrows, rfl, by rw [hlookB]; rfl⟩
            · intro hpre
              cases hpre.1
            · intro c hc
              injection hc with h
              rw [← h]

/-- A freshly initialized repository: seed present and unsigned, no
changelogs, working minisign configuration. -/
def exGenesis : RepoState :=
  { changelogs := [], sigs := [], seedContent := some "SEEDBYTES", seedSigned := false,
    today := "2025-05-02", now := "2025-05-02 09:00:00 UTC", keyConfigured := true,
    pubConfigured := true, keyExists := true, signWorks := true }

/-- The state `start_closing` produces from `exGenesis` with the identity
digest function. -/
def exGenesisResult : RepoState :=
  { changelogs := [("changelog-2025-05-02.csv",
      [{ timestamp := "2025-05-02 09:00:00 UTC", transaction_type := "closing",
         path := "db/seed.bin", category := "", size := "", ctime := "", mtime := "",
         sha256 := "", blake3 := "SEEDBYTES" }])],
    sigs := [], seedContent := some "SEEDBYTES", seedSigned := true,
    today := "2025-05-02", now := "2025-05-02 09:00:00 UTC", keyConfigured := true,
    pubConfigured := true, keyExists := true, signWorks := true }

/-- Witness for C1 at the genesis state: the first lifecycle call signs the
seed and opens a changelog whose only row binds to `db/seed.bin`. -/
theorem C1_witness :
    ((∀ a ∈ changelogNames exGenesis, ∀ b ∈ changelogNames exGenesis,
        exGenesis.sigs.contains a = false → exGenesis.sigs.contains b = false → a = b) ∧
     (∀ n ∈ exGenesis.sigs, n ∈ changelogNames exGenesis) ∧
     exGenesis.seedContent.isSome = true ∧
     start_closing (fun c => c) exGenesis none =
       .ok ((true, "Signed seed file and created first changelog: changelog-2025-05-02.csv"),
         exGenesisResult)) ∧
    (∃ newName row,
      newName ∉ changelogNames exGenesis ∧
      exGenesisResult.changelogs = (newName, [row]) :: exGenesis.changelogs ∧
      row.transaction_type = "closing" ∧
      ((row.path = "db/seed.bin" ∧ row.blake3 = exGenesis.seedContent.getD "") ∨
       (∃ prev rows, (prev, rows) ∈ exGenesis.changelogs ∧
          row.path = "changes/" ++ prev ∧ row.blake3 = renderChangelog rows)) ∧
      (get_current_changelog exGenesis = none ∧ exGenesis.seedSigned = false →
        row.path = "db/seed.bin") ∧
      (∀ cur, get_current_changelog exGenesis = some cur →
        row.path = "changes/" ++ cur)) := by
  refine ⟨⟨?_, ?_, ?_, ?_⟩, ?_⟩
  · decide
  · decide
  · decide
  · decide
  · exact @C1_closing_row_binds_anchor (fun c => c) exGenesis none (by decide) (by decide)
      (by decide)
      "Signed seed file and created first changelog: changelog-2025-05-02.csv"
      exGenesisResult (by decide)

end Historify
